import Mathlib

/-!
# Verification of the TerrainGenerator wave-function-collapse core

Shallow embedding of `src/main.js` (classes `State`, `Constraints`, `Square`,
`CollapedSquare`, `Grid`, `WaveFunctionCollapse`, `Filter`, and the helper
`weightedRandom`).  JavaScript numbers are modelled as `ℚ`, the JS
`undefined` value as `Option.none`, thrown exceptions as an `Option`-valued
result (`none` = the call throws), and in-place array mutation as functional
update.  `Math.random()` draws and the random tie-break index are passed in
as explicit parameters.
-/

namespace TG

/-- The seven terrain states of class `State` (`src/main.js` lines 10-17),
in class-body order, which is also the order produced by `State.getAll`. -/
inductive State where
  | deep
  | water
  | beach
  | grass
  | trees
  | mountain
  | snow
deriving DecidableEq, Repr

/-- `State.all_list` (line 73): every state, in class-body order. -/
def allStates : List State :=
  [.deep, .water, .beach, .grass, .trees, .mountain, .snow]

/-- One entry of class `Constraints` (lines 87-116): the legal neighbour
states and their bias weights, as parallel lists. -/
structure Constraint where
  states : List State
  weights : List ℚ
deriving DecidableEq, Repr

/-- The `Constraints` table (lines 88-115).  Lookup by state replaces the
JS lookup `Constraints[State.getName(state)]`. -/
def Constraints : State → Constraint
  | .deep => ⟨[.deep, .water], [6, 1]⟩
  | .water => ⟨[.deep, .water, .beach], [1, 4, 6]⟩
  | .beach => ⟨[.water, .beach, .grass], [2, 1, 3]⟩
  | .grass => ⟨[.mountain, .beach, .grass, .trees], [1, 1, 3, 2]⟩
  | .trees => ⟨[.mountain, .grass, .trees], [1, 1, 2]⟩
  | .mountain => ⟨[.snow, .trees, .grass, .mountain], [2, 2, 1, 2]⟩
  | .snow => ⟨[.snow, .mountain], [2, 3]⟩

/-- `Filter.#allConstraints.length` (line 636): the regex over the class
body of `Constraints` matches its seven static entries. -/
def allConstraintsLength : Nat := 7

/-- Insertion into a JS `Set` keeps the first occurrence of each element;
`jsSetDedup l` is `Array.from(new Set(l))`. -/
def jsSetDedup {α : Type} [DecidableEq α] (l : List α) : List α :=
  l.foldl (fun acc a => if a ∈ acc then acc else acc ++ [a]) []

/-- Class `Filter` (lines 607-693): a list of states used as an
allowed-set.  The JS class never dedups the list it is given. -/
structure Filter where
  constraints : List State
deriving DecidableEq, Repr

namespace Filter

/-- `Filter.includes` (lines 663-665). -/
def includes (f : Filter) (s : State) : Bool :=
  f.constraints.contains s

/-- `Filter.size` (lines 686-688). -/
def size (f : Filter) : Nat :=
  f.constraints.length

/-- `Filter.equals` (lines 652-658): size equality plus membership of every
constraint of the argument. -/
def equals (f other : Filter) : Bool :=
  if f.size ≠ other.size then false
  else other.constraints.all (fun c => f.includes c)

/-- `Filter.hasAll` (lines 690-692): the size equals the number of entries
of the `Constraints` class (7). -/
def hasAll (f : Filter) : Bool :=
  f.size = allConstraintsLength

/-- `Filter.filter_union` (lines 611-613): a `Filter` on the JS-`Set`
dedup of the concatenation of the given state lists. -/
def filter_union (constraints : List (List State)) : Filter :=
  ⟨jsSetDedup (constraints.foldl (fun acc l => acc ++ l) [])⟩

/-- `Filter.combine` (lines 618-634): seed a JS `Set` from the first
filter, then delete every element not included in each later filter. -/
def combine (filters : List Filter) : Filter :=
  match filters with
  | [] => ⟨[]⟩
  | f :: rest =>
      ⟨rest.foldl (fun acc g => acc.filter (fun s => g.includes s))
        (jsSetDedup f.constraints)⟩

/-- `Filter.filter` (lines 670-675): the source iterates the state list
downward and splices out every state the filter does not include, which
removes exactly the non-members while preserving order. -/
def apply (f : Filter) (stateList : List State) : List State :=
  stateList.filter (fun s => f.includes s)

theorem includes_iff (f : Filter) (s : State) :
    f.includes s = true ↔ s ∈ f.constraints := by
  simp [includes, List.elem_iff]

end Filter

theorem mem_jsSetDedup {α : Type} [DecidableEq α] (l : List α) (a : α) :
    a ∈ jsSetDedup l ↔ a ∈ l := by
  have h : ∀ (acc : List α), a ∈ l.foldl
      (fun acc x => if x ∈ acc then acc else acc ++ [x]) acc ↔ a ∈ acc ∨ a ∈ l := by
    induction l with
    | nil => intro acc; simp
    | cons x xs ih =>
        intro acc
        simp only [List.foldl_cons]
        by_cases hx : x ∈ acc
        · rw [if_pos hx, ih]
          constructor
          · rintro (h | h)
            · exact Or.inl h
            · exact Or.inr (List.mem_cons_of_mem _ h)
          · rintro (h | h)
            · exact Or.inl h
            · rcases List.mem_cons.mp h with rfl | h
              · exact Or.inl hx
              · exact Or.inr h
        · rw [if_neg hx, ih]
          constructor
          · rintro (h | h)
            · rcases List.mem_append.mp h with h | h
              · exact Or.inl h
              · simp at h; subst h; exact Or.inr (List.mem_cons_self _ _)
            · exact Or.inr (List.mem_cons_of_mem _ h)
          · rintro (h | h)
            · exact Or.inl (List.mem_append.mpr (Or.inl h))
            · rcases List.mem_cons.mp h with rfl | h
              · exact Or.inl (List.mem_append.mpr (Or.inr (by simp)))
              · exact Or.inr h
  rw [jsSetDedup, h]
  simp

theorem nodup_jsSetDedup {α : Type} [DecidableEq α] (l : List α) :
    (jsSetDedup l).Nodup := by
  have h : ∀ (acc : List α), acc.Nodup →
      (l.foldl (fun acc x => if x ∈ acc then acc else acc ++ [x]) acc).Nodup := by
    induction l with
    | nil => intro acc hacc; simpa using hacc
    | cons x xs ih =>
        intro acc hacc
        simp only [List.foldl_cons]
        by_cases hx : x ∈ acc
        · rw [if_pos hx]; exact ih acc hacc
        · rw [if_neg hx]
          exact ih _ (by simp [List.nodup_append, hacc, hx])
  exact h [] List.nodup_nil

theorem jsSetDedup_eq_self {α : Type} [DecidableEq α] (l : List α)
    (h : l.Nodup) : jsSetDedup l = l := by
  suffices key : ∀ (m acc : List α), (∀ a ∈ m, a ∉ acc) → m.Nodup →
      m.foldl (fun acc x => if x ∈ acc then acc else acc ++ [x]) acc = acc ++ m by
    simpa using key l [] (by simp) h
  intro m
  induction m with
  | nil => intro acc _ _; simp
  | cons x xs ih =>
      intro acc hdis hnd
      simp only [List.foldl_cons]
      rw [if_neg (hdis x (List.mem_cons_self _ _))]
      rw [ih (acc ++ [x])
        (by
          intro a ha
          simp only [List.mem_append, List.mem_singleton]
          rintro (h | rfl)
          · exact hdis a (List.mem_cons_of_mem _ ha) h
          · exact (List.nodup_cons.mp hnd).1 ha)
        (List.nodup_cons.mp hnd).2]
      simp

/-- Class `Square` (lines 119-188): an uncollapsed cell with its position
and the list of still-possible states. -/
structure Square where
  pos : ℤ × ℤ
  states : List State
deriving DecidableEq, Repr

/-- `Square.entropy` (lines 120-122). -/
def Square.entropy (sq : Square) : Nat :=
  sq.states.length

/-- Class `CollapedSquare` (lines 190-216) [sic].  Its `state` field holds
whatever `weightedRandom` returned; the JS value `undefined` (returned when
no weight makes the draw go negative) is modelled as `none`. -/
structure CollapedSquare where
  pos : ℤ × ℤ
  state : Option State
deriving DecidableEq, Repr

/-- A grid slot holds either a `Square` or a `CollapedSquare`. -/
inductive Cell where
  | sq (s : Square)
  | coll (c : CollapedSquare)
deriving DecidableEq, Repr

/-- The `Square` constructor (lines 132-138): a fresh cell holding the full
candidate list in catalog order. -/
def freshSquare (x y : ℤ) : Square :=
  ⟨(x, y), allStates⟩

/-- Class `Grid` (lines 218-337).  `grid` is the x-indexed list of
y-indexed columns; `width`/`height` are the validated private fields. -/
structure Grid where
  width : ℤ
  height : ℤ
  grid : List (List Cell)
deriving DecidableEq, Repr

namespace Grid

/-- `Grid.#resize` / the constructor body (lines 258-260, 332-336):
`Array.from({length: n})` clamps a negative length to `0`, hence `toNat`. -/
def mkCells (w h : ℤ) : List (List Cell) :=
  (List.range w.toNat).map (fun (x : ℕ) =>
    (List.range h.toNat).map (fun (y : ℕ) => Cell.sq (freshSquare x y)))

/-- `Grid.get` (lines 301-307) restricted to integer coordinates:
`grid[x][y]`, with any out-of-range index giving `undefined` (the negative
or too-large `x` throws inside the `try` and is caught). -/
def get (g : Grid) (x y : ℤ) : Option Cell :=
  if 0 ≤ x ∧ 0 ≤ y then (g.grid.get? x.toNat).bind (fun col => col.get? y.toNat)
  else none

/-- `Grid.get` (lines 301-307) at arbitrary JS-number coordinates: a
non-integer index is not an own property of the array, so the lookup
yields `undefined`. -/
def jsGet (g : Grid) (x y : ℚ) : Option Cell :=
  if x.den = 1 ∧ y.den = 1 then g.get x.num y.num else none

/-- `Grid.set` (lines 314-316), modelled for in-range coordinates (the
algorithm only ever writes at a coordinate it just read a `Square` from);
an out-of-range write is a no-op here. -/
def setCell (g : Grid) (x y : ℤ) (v : Cell) : Grid :=
  if 0 ≤ x ∧ 0 ≤ y then
    match g.grid.get? x.toNat with
    | some col => { g with grid := g.grid.set x.toNat (col.set y.toNat v) }
    | none => g
  else g

/-- `Grid.getNeighbours` (lines 323-330): the fixed-order `+x, -x, +y, -y`
4-tuple. -/
def getNeighbours (g : Grid) (x y : ℤ) : List (Option Cell) :=
  [g.get (x + 1) y, g.get (x - 1) y, g.get x (y + 1), g.get x (y - 1)]

/-- `set width` (lines 233-238): throws a `ScalingError` unless the value
is a positive integer, then reinitializes the matrix. -/
def setWidth (g : Grid) (val : ℚ) : Option Grid :=
  if ¬(val.den = 1) ∨ val ≤ 0 then none
  else some { width := val.num, height := g.height, grid := mkCells val.num g.height }

/-- `set height` (lines 243-247): throws a `ScalingError` unless the value
is an integer (no positivity check), then reinitializes the matrix. -/
def setHeight (g : Grid) (val : ℚ) : Option Grid :=
  if ¬(val.den = 1) then none
  else some { width := g.width, height := val.num, grid := mkCells g.width val.num }

end Grid

/-- `weightedRandom`, the subtraction loop (lines 923-926). -/
def weightedRandomGo : List (State × ℚ) → ℚ → Option State
  | [], _ => none
  | (k, v) :: t, rand => if rand - v < 0 then some k else weightedRandomGo t (rand - v)

/-- `weightedRandom` (lines 919-927).  `r` stands for the `Math.random()`
draw; the JS function falls off the end (returns `undefined`, i.e. `none`)
when no weight drives the running remainder negative. -/
def weightedRandom (weights : List (State × ℚ)) (r : ℚ) : Option State :=
  weightedRandomGo weights (r * (weights.map Prod.snd).sum)

/-- `filteredWeights[key] += value`: bump the (unique) entry of `key`. -/
def addWeight : List (State × ℚ) → State → ℚ → List (State × ℚ)
  | [], _, _ => []
  | (k, w) :: t, key, v =>
      if k = key then (k, w + v) :: t else (k, w) :: addWeight t key v

/-- The `filteredWeights` object of `Square.collapse` (lines 178-184):
every candidate gets base weight 1 (a JS object keeps one key per distinct
state, in first-insertion order), then bias entries whose key is a
candidate are added onto their entry. -/
def filteredWeights (sq : Square) (bias : List (State × ℚ)) : List (State × ℚ) :=
  bias.foldl
    (fun acc kv => if sq.states.contains kv.1 then addWeight acc kv.1 kv.2 else acc)
    ((jsSetDedup sq.states).map (fun s => (s, (1 : ℚ))))

/-- `Square.collapse` (lines 177-187): the cell collapses at the same
position to whatever `weightedRandom` draws over `filteredWeights`. -/
def Square.collapse (sq : Square) (bias : List (State × ℚ)) (r : ℚ) : CollapedSquare :=
  ⟨sq.pos, weightedRandom (filteredWeights sq bias) r⟩

/-- `Cell` position. -/
def Cell.cpos : Cell → ℤ × ℤ
  | .sq s => s.pos
  | .coll c => c.pos

/-- The per-coordinate filter accumulator `filterList` (line 525): a JS
object keyed by `JSON.stringify(square.pos)`, i.e. an association list in
key-insertion order, each key holding its deposits in push order. -/
abbrev FilterList : Type := List ((ℤ × ℤ) × List Filter)

/-- `filterList[posString].push(...)` with on-demand key creation
(lines 570-572): a fresh key goes to the end, an existing key appends. -/
def pushFilter (fl : FilterList) (p : ℤ × ℤ) (f : Filter) : FilterList :=
  if fl.any (fun kv => kv.1 = p) then
    fl.map (fun kv => if kv.1 = p then (kv.1, kv.2 ++ [f]) else kv)
  else fl ++ [(p, [f])]

/-- Lookup of a key's deposit list in the accumulator. -/
def lookupFL (fl : FilterList) (p : ℤ × ℤ) : Option (List Filter) :=
  (fl.find? (fun kv => kv.1 = p)).map Prod.snd

/-- The four recursion directions of `#setFilters` (lines 581-584) in
source order: `+x, -x, +y, -y`. -/
def stdDirs : List (ℤ × ℤ) :=
  [(1, 0), (-1, 0), (0, 1), (0, -1)]

/-- `WaveFunctionCollapse.#setFilters` (lines 557-585), parameterized by
the list of directions explored at every node (`stdDirs` in the source)
and by explicit recursion fuel (the JS recursion is unbounded; fuel
stability is proved separately).  `completed` is the path-local visited
list; the JS array holds `Square` objects compared by identity, and since
exploration never mutates the grid, distinct slots hold distinct objects,
go object identity is coordinate equality. -/
def setFiltersOrd (g : Grid) (dirs : List (ℤ × ℤ)) :
    Nat → ℤ → ℤ → Filter → FilterList → List (ℤ × ℤ) → FilterList
  | 0, _, _, _, fl, _ => fl
  | fuel + 1, x, y, f, fl, completed =>
    if f.hasAll then fl
    else
      match g.get x y with
      | some (Cell.sq square) =>
          if (x, y) ∈ completed then fl
          else if (Filter.mk square.states).equals f then fl
          else
            let completed' := completed ++ [(x, y)]
            let states := f.apply square.states
            let fl1 := pushFilter fl square.pos (Filter.mk states)
            let newFilter :=
              Filter.filter_union (states.map (fun s => (Constraints s).states))
            dirs.foldl
              (fun acc d =>
                setFiltersOrd g dirs fuel (x + d.1) (y + d.2) newFilter acc completed')
              fl1
      | _ => fl

/-- One entry of `#propagateFilter` (lines 591-596): look the key's cell
up, intersect its deposits and narrow that cell's candidate list in place.
`none` models the `TypeError` thrown when the grid value at the key is
absent or has no `states` array. -/
def propagateStepCell (g : Grid) (p : ℤ × ℤ) (fs : List Filter) : Option Grid :=
  match g.get p.1 p.2 with
  | some (Cell.sq square) =>
      some (g.setCell p.1 p.2
        (Cell.sq ⟨square.pos, (Filter.combine fs).apply square.states⟩))
  | _ => none

/-- `WaveFunctionCollapse.#propagateFilter` (lines 590-598): walk the
accumulator in key order, committing each key's combined filter; a thrown
`TypeError` (`none`) aborts the loop. -/
def propagate (g : Grid) : FilterList → Option Grid
  | [] => some g
  | (p, fs) :: rest => (propagateStepCell g p fs).bind (fun g1 => propagate g1 rest)

/-- Total number of cells of the grid matrix. -/
def cellCount (g : Grid) : Nat :=
  (g.grid.map List.length).sum

/-- Positions of one column's `Square`s (helper for `squarePositions`). -/
def colSquarePositions (x : ℕ) (col : List Cell) : List (ℤ × ℤ) :=
  (List.range col.length).filterMap (fun j =>
    match col.get? j with
    | some (Cell.sq _) => some ((x : ℤ), (j : ℤ))
    | _ => none)

/-- The coordinates holding an uncollapsed `Square`. -/
def squarePositions (g : Grid) : List (ℤ × ℤ) :=
  (List.range g.grid.length).flatMap (fun x =>
    colSquarePositions x ((g.grid.get? x).getD []))

/-- Canonical fuel: deep enough that `setFiltersOrd` has stabilized. -/
def stdFuel (g : Grid) : Nat :=
  (squarePositions g).length + 1

/-- The seed phase of a propagation (lines 523-530): explore the four
neighbours of the collapsed position with the collapsed state's constraint
filter and an empty path. -/
def seedFiltersOrd (dirs : List (ℤ × ℤ)) (g : Grid) (pos : ℤ × ℤ) (f : Filter) :
    FilterList :=
  dirs.foldl
    (fun fl d => setFiltersOrd g dirs (stdFuel g) (pos.1 + d.1) (pos.2 + d.2) f fl [])
    []

/-- The whole propagation triggered by a collapse at `pos` with state `s`
(lines 522-533): seed exploration in the four directions, then finalize. -/
def seedPropagationOrd (dirs : List (ℤ × ℤ)) (g : Grid) (pos : ℤ × ℤ) (s : State) :
    Option Grid :=
  propagate g (seedFiltersOrd dirs g pos (Filter.mk (Constraints s).states))

/-- Propagation with the source's direction order. -/
def seedPropagation (g : Grid) (pos : ℤ × ℤ) (s : State) : Option Grid :=
  seedPropagationOrd stdDirs g pos s

/-- `WaveFunctionCollapse.canStep` (lines 536-548): some slot still holds
an uncollapsed `Square`. -/
def canStep (g : Grid) : Bool :=
  g.grid.any (fun col => col.any (fun c => match c with | Cell.sq _ => true | _ => false))

/-- One iteration of the lowest-entropy scan (lines 471-492): skip
collapsed squares; an empty set starts with the square; a strictly lower
entropy clears the set; an equal entropy joins it.  The JS `Set` keeps
insertion order, so `const [first] = lowestEntropySet` is the list head. -/
def lowestStep (acc : List Square) (c : Cell) : List Square :=
  match c with
  | Cell.coll _ => acc
  | Cell.sq square =>
      match acc with
      | [] => [square]
      | first :: _ =>
          if square.entropy < first.entropy then [square]
          else if square.entropy = first.entropy then acc ++ [square]
          else acc

/-- The minimum-entropy tie set, in grid scan order (lines 469-492). -/
def lowestEntropyList (g : Grid) : List Square :=
  g.grid.foldl (fun acc col => col.foldl lowestStep acc) []

/-- The weight object built from one constraint entry (lines 502-507):
parallel `states`/`weights` become key/value pairs. -/
def weightObj (c : Constraint) : List (State × ℚ) :=
  c.states.zip c.weights

/-- The weight objects of the collapsed neighbours (lines 497-508); `none`
models the `TypeError` from `Constraints[State.getName(undefined)]` when a
collapsed neighbour carries the undefined state. -/
def neighbourWeightObjs : List CollapedSquare → Option (List (List (State × ℚ)))
  | [] => some []
  | c :: t =>
      match c.state with
      | none => none
      | some s => (neighbourWeightObjs t).map (fun rest => weightObj (Constraints s) :: rest)

/-- The `reduce` merging the neighbour weight objects (lines 509-518):
existing keys accumulate, new keys are appended. -/
def mergeWeights (objs : List (List (State × ℚ))) : List (State × ℚ) :=
  objs.foldl
    (fun prev curr =>
      curr.foldl
        (fun p kv => if p.any (fun e => e.1 = kv.1) then addWeight p kv.1 kv.2 else p ++ [kv])
        prev)
    []

/-- The collapsed-neighbour bias gathering of `step` (lines 497-518):
filter the 4-tuple of neighbours down to `CollapedSquare`s, build each
one's weight object from its constraint entry (throwing — `none` — on an
undefined state), and merge them summing per state. -/
def gatherWeights (g : Grid) (pos : ℤ × ℤ) : Option (List (State × ℚ)) :=
  (neighbourWeightObjs ((g.getNeighbours pos.1 pos.2).filterMap
    (fun oc => match oc with | some (Cell.coll c) => some c | _ => none))).map
    mergeWeights

/-- `grid.get(...).collapse(...)`: the call throws (`none`) unless the
looked-up value is an uncollapsed `Square` owning a `collapse` method. -/
def asSquare : Option Cell → Option Square
  | some (Cell.sq s) => some s
  | _ => none

/-- Lines 519-533 of `step`: collapse the chosen square, install the
result, and — unless the drawn state is the undefined marker, on which
the constraint lookup of line 523 throws — run the seeded propagation. -/
def stepCollapse (g : Grid) (pos : ℤ × ℤ) (target : Square)
    (weights : List (State × ℚ)) (r : ℚ) : Option Grid :=
  (target.collapse weights r).state.bind (fun s =>
    seedPropagation (g.setCell pos.1 pos.2 (Cell.coll (target.collapse weights r)))
      pos s)

/-- `WaveFunctionCollapse.step` (lines 464-534).  `tie` is the random
tie-break index `Math.floor(Math.random()*size)` and `r` the draw used by
`weightedRandom`; `none` models a thrown `TypeError` (out-of-range tie
index, collapse of a non-`Square`, or an undefined collapsed state at the
constraint lookup of line 523; the throw unwinds out of `step`, so no
resulting grid is returned). -/
def step (g : Grid) (tie : Nat) (r : ℚ) : Option Grid :=
  if ¬ canStep g then some g
  else
    ((lowestEntropyList g).get? tie).bind (fun sq =>
      (gatherWeights g sq.pos).bind (fun weights =>
        (asSquare (g.get sq.pos.1 sq.pos.2)).bind (fun target =>
          stepCollapse g sq.pos target weights r)))

/-- Sum of candidate-set sizes over uncollapsed cells. -/
def cellEntropy : Cell → Nat
  | Cell.sq s => s.states.length
  | Cell.coll _ => 0

/-- Total entropy of the grid: sum of `cellEntropy` over every slot. -/
def totalEntropy (g : Grid) : Nat :=
  (g.grid.map (fun col => (col.map cellEntropy).sum)).sum

/-- Grid coherence: every stored cell records the coordinates of its own
slot.  Construction, resize and `step` maintain this. -/
def wf (g : Grid) : Prop :=
  ∀ x y c, g.get x y = some c → c.cpos = (x, y)

/-- Executable check for `wf`, for concrete witnesses. -/
def wfB (g : Grid) : Bool :=
  (List.range g.grid.length).all (fun x =>
    (List.range ((g.grid.get? x).getD []).length).all (fun y =>
      match ((g.grid.get? x).getD []).get? y with
      | some c => c.cpos = ((x : ℤ), (y : ℤ))
      | none => true))

/-- In-range coordinates of the (possibly ragged) grid matrix. -/
def inRange (g : Grid) (x y : ℤ) : Prop :=
  0 ≤ x ∧ 0 ≤ y ∧ x.toNat < g.grid.length ∧
    y.toNat < ((g.grid.get? x.toNat).getD []).length

instance (g : Grid) (x y : ℤ) : Decidable (inRange g x y) := by
  unfold inRange; infer_instance

theorem get_eq_none_of_not_inRange (g : Grid) (x y : ℤ) (h : ¬ inRange g x y) :
    g.get x y = none := by
  unfold inRange at h
  unfold Grid.get
  by_cases hxy : 0 ≤ x ∧ 0 ≤ y
  · rw [if_pos hxy]
    push_neg at h
    match hcol : g.grid.get? x.toNat with
    | none => rfl
    | some col =>
        have hxlen : x.toNat < g.grid.length := by
          by_contra hk
          rw [List.get?_eq_none.mpr (Nat.le_of_not_lt hk)] at hcol
          exact Option.noConfusion hcol
        show col.get? y.toNat = none
        have := h hxy.1 hxy.2 hxlen
        rw [hcol] at this
        simp only [Option.getD_some] at this
        exact List.get?_eq_none.mpr this
  · rw [if_neg hxy]

theorem setFiltersOrd_stops_at_absent (g : Grid) (x y : ℤ)
    (h : g.get x y = none) (dirs : List (ℤ × ℤ)) (fuel : Nat) (f : Filter)
    (fl : FilterList) (completed : List (ℤ × ℤ)) :
    setFiltersOrd g dirs fuel x y f fl completed = fl := by
  cases fuel with
  | zero => rfl
  | succ n =>
      unfold setFiltersOrd
      rw [h]
      by_cases hf : f.hasAll <;> simp [hf]

theorem get_mkCells (W H wd ht x y : ℤ) :
    Grid.get ⟨wd, ht, Grid.mkCells W H⟩ x y =
      if 0 ≤ x ∧ 0 ≤ y ∧ x < W ∧ y < H then some (Cell.sq (freshSquare x y)) else none := by
  unfold Grid.get Grid.mkCells
  by_cases hx : 0 ≤ x
  · by_cases hxW : x < W
    · have h1 : (List.range W.toNat)[x.toNat]? = some x.toNat :=
        List.getElem?_range (by omega)
      by_cases hy : 0 ≤ y
      · by_cases hyH : y < H
        · have h2 : (List.range H.toNat)[y.toNat]? = some y.toNat :=
            List.getElem?_range (by omega)
          simp [hx, hy, hxW, hyH, h1, h2, List.get?_eq_getElem?, List.getElem?_map,
            freshSquare, Int.toNat_of_nonneg hx, Int.toNat_of_nonneg hy]
        · have h2 : (List.range H.toNat)[y.toNat]? = none :=
            List.getElem?_eq_none (by simp [List.length_range]; omega)
          simp [hx, hy, hyH, h1, h2, List.get?_eq_getElem?, List.getElem?_map]
      · simp [hx, hy, h1, List.get?_eq_getElem?, List.getElem?_map]
    · have h1 : (List.range W.toNat)[x.toNat]? = none :=
        List.getElem?_eq_none (by simp [List.length_range]; omega)
      simp [hx, hxW, h1, List.get?_eq_getElem?, List.getElem?_map]
  · simp [hx]

/-- C8: `Grid.get` is total over all numeric coordinates and returns the
absent marker (`none`, the model of `undefined`) whenever the coordinates
are out of range or non-integral; `getNeighbours` is the fixed-order
4-tuple `+x, -x, +y, -y` of such lookups; and exploration arriving at an
absent coordinate is a no-op on the filter accumulator, not a failure. -/
theorem c8_bounds_safe (g : Grid) (x y : ℤ) :
    (¬ inRange g x y → g.get x y = none) ∧
    (∀ xq yq : ℚ, ¬ (xq.den = 1 ∧ yq.den = 1) → g.jsGet xq yq = none) ∧
    g.getNeighbours x y =
      [g.get (x + 1) y, g.get (x - 1) y, g.get x (y + 1), g.get x (y - 1)] ∧
    (g.get x y = none →
      ∀ dirs fuel f fl completed, setFiltersOrd g dirs fuel x y f fl completed = fl) := by
  refine ⟨get_eq_none_of_not_inRange g x y, ?_, rfl, ?_⟩
  · intro xq yq h
    unfold Grid.jsGet
    rw [if_neg h]
  · intro h dirs fuel f fl completed
    exact setFiltersOrd_stops_at_absent g x y h dirs fuel f fl completed

/-- The non-integer JS number 0.5, in reduced `ℚ` representation. -/
def halfQ : ℚ := ⟨1, 2, by decide, by decide⟩

/-- Witness for C8 at a concrete grid and concrete out-of-range input. -/
theorem c8_bounds_safe_witness :
    Grid.get ⟨1, 1, Grid.mkCells 1 1⟩ 5 0 = none ∧
    Grid.jsGet ⟨1, 1, Grid.mkCells 1 1⟩ halfQ 0 = none ∧
    setFiltersOrd ⟨1, 1, Grid.mkCells 1 1⟩ stdDirs 3 5 0 ⟨[]⟩ [] [] = [] := by
  have h := c8_bounds_safe ⟨1, 1, Grid.mkCells 1 1⟩ 5 0
  have h1 : Grid.get ⟨1, 1, Grid.mkCells 1 1⟩ 5 0 = none := h.1 (by decide)
  exact ⟨h1, h.2.1 halfQ 0 (by decide), h.2.2.2 h1 stdDirs 3 ⟨[]⟩ [] []⟩

/-- C5: setting the width fails (throws `ScalingError`) unless the value
is a positive integer, while setting the height fails only when the value
is not an integer (no positivity required — the asymmetry of the source);
on success every in-range position of the rebuilt matrix holds a fresh
`Square` carrying the full 7-state catalog, and nothing else is stored. -/
theorem c5_resize_validation (g : Grid) (v : ℚ) :
    (Grid.setWidth g v = none ↔ ¬ (v.den = 1 ∧ 0 < v)) ∧
    (Grid.setHeight g v = none ↔ v.den ≠ 1) ∧
    (∀ g', Grid.setWidth g v = some g' → ∀ x y : ℤ,
      g'.get x y =
        if 0 ≤ x ∧ 0 ≤ y ∧ x < v.num ∧ y < g.height
        then some (Cell.sq (freshSquare x y)) else none) ∧
    (∀ g', Grid.setHeight g v = some g' → ∀ x y : ℤ,
      g'.get x y =
        if 0 ≤ x ∧ 0 ≤ y ∧ x < g.width ∧ y < v.num
        then some (Cell.sq (freshSquare x y)) else none) ∧
    (∀ x y : ℤ, (freshSquare x y).states.length = 7) ∧ allStates.length = 7 := by
  refine ⟨?_, ?_, ?_, ?_, fun _ _ => rfl, rfl⟩
  · unfold Grid.setWidth
    by_cases h : ¬ v.den = 1 ∨ v ≤ 0
    · rw [if_pos h]
      constructor
      · intro _
        rcases h with h | h
        · tauto
        · intro hc; exact absurd hc.2 (not_lt.mpr h)
      · intro _; rfl
    · rw [if_neg h]
      push_neg at h
      constructor
      · intro hc; exact Option.noConfusion hc
      · intro hc; exact absurd ⟨h.1, h.2⟩ hc
  · unfold Grid.setHeight
    by_cases h : ¬ v.den = 1
    · rw [if_pos h]
      exact ⟨fun _ => h, fun _ => rfl⟩
    · rw [if_neg h]
      push_neg at h
      exact ⟨fun hc => Option.noConfusion hc, fun hc => absurd h hc⟩
  · intro g' hg' x y
    unfold Grid.setWidth at hg'
    by_cases h : ¬ v.den = 1 ∨ v ≤ 0
    · rw [if_pos h] at hg'; exact Option.noConfusion hg'
    · rw [if_neg h] at hg'
      have := Option.some.inj hg'
      subst this
      exact get_mkCells v.num g.height v.num g.height x y
  · intro g' hg' x y
    unfold Grid.setHeight at hg'
    by_cases h : ¬ v.den = 1
    · rw [if_pos h] at hg'; exact Option.noConfusion hg'
    · rw [if_neg h] at hg'
      have := Option.some.inj hg'
      subst this
      exact get_mkCells g.width v.num g.width v.num x y

/-- Witness for C5 on a concrete grid: resize to width 2 succeeds and
fills the grid with fresh full-catalog squares; width 0, width 1/2 and
height 1/2 fail; height -3 succeeds (the flagged asymmetry). -/
theorem c5_resize_validation_witness :
    Grid.setWidth ⟨1, 1, Grid.mkCells 1 1⟩ 0 = none ∧
    Grid.setWidth ⟨1, 1, Grid.mkCells 1 1⟩ halfQ = none ∧
    Grid.setHeight ⟨1, 1, Grid.mkCells 1 1⟩ halfQ = none ∧
    Grid.setHeight ⟨1, 1, Grid.mkCells 1 1⟩ (-3) ≠ none ∧
    (∀ g', Grid.setWidth ⟨1, 1, Grid.mkCells 1 1⟩ 2 = some g' →
      g'.get 1 0 = some (Cell.sq (freshSquare 1 0))) ∧
    (freshSquare 1 0).states.length = 7 := by
  have h0 := c5_resize_validation ⟨1, 1, Grid.mkCells 1 1⟩ 0
  have hhalf := c5_resize_validation ⟨1, 1, Grid.mkCells 1 1⟩ halfQ
  have hneg := c5_resize_validation ⟨1, 1, Grid.mkCells 1 1⟩ (-3)
  have h2 := c5_resize_validation ⟨1, 1, Grid.mkCells 1 1⟩ 2
  refine ⟨h0.1.mpr (by decide), hhalf.1.mpr (by decide), ?_, ?_, ?_, h2.2.2.2.2.1 1 0⟩
  · rw [hhalf.2.1]; decide
  · intro hc
    rw [hneg.2.1] at hc
    exact hc (by decide)
  · intro g' hg'
    have := h2.2.2.1 g' hg' 1 0
    rw [this]
    norm_num

theorem bool_eq_of_iff {a b : Bool} (h : a = true ↔ b = true) : a = b := by
  cases a <;> cases b <;> simp_all

theorem foldl_filter_mem (s : State) (rest : List Filter) (seed : List State) :
    s ∈ rest.foldl (fun acc g => acc.filter (fun t => g.includes t)) seed ↔
      s ∈ seed ∧ ∀ g ∈ rest, g.includes s = true := by
  induction rest generalizing seed with
  | nil => simp
  | cons g0 t ih =>
      simp only [List.foldl_cons]
      rw [ih]
      constructor
      · rintro ⟨hmem, hall⟩
        rcases List.mem_filter.mp hmem with ⟨h1, h2⟩
        refine ⟨h1, ?_⟩
        intro g hg
        rcases List.mem_cons.mp hg with rfl | hg
        · exact h2
        · exact hall g hg
      · rintro ⟨hmem, hall⟩
        refine ⟨List.mem_filter.mpr ⟨hmem, hall g0 (List.mem_cons_self _ _)⟩, ?_⟩
        intro g hg
        exact hall g (List.mem_cons_of_mem _ hg)

/-- Membership in `Filter.combine`: a state survives exactly when the list
is non-empty and every filter of the list includes it. -/
theorem combine_includes (l : List Filter) (s : State) :
    (Filter.combine l).includes s = true ↔ (l ≠ [] ∧ ∀ g ∈ l, g.includes s = true) := by
  match l with
  | [] =>
      constructor
      · intro h; cases h
      · rintro ⟨h, _⟩; cases h rfl
  | f :: rest =>
      unfold Filter.combine
      rw [show (Filter.mk (rest.foldl (fun acc g => acc.filter (fun t => g.includes t))
        (jsSetDedup f.constraints))).includes s = true ↔
          s ∈ rest.foldl (fun acc g => acc.filter (fun t => g.includes t))
            (jsSetDedup f.constraints) from by
        simp [Filter.includes, List.elem_iff]]
      rw [foldl_filter_mem, mem_jsSetDedup]
      constructor
      · rintro ⟨h1, h2⟩
        refine ⟨List.cons_ne_nil _ _, ?_⟩
        intro g hg
        rcases List.mem_cons.mp hg with rfl | hg
        · simp [Filter.includes, List.elem_iff, h1]
        · exact h2 g hg
      · rintro ⟨_, hall⟩
        have hf := hall f (List.mem_cons_self _ _)
        simp only [Filter.includes, List.elem_iff] at hf
        refine ⟨by simpa using hf, ?_⟩
        intro g hg
        exact hall g (List.mem_cons_of_mem _ hg)

theorem equals_self (f : Filter) : f.equals f = true := by
  unfold Filter.equals
  rw [if_neg (by simp)]
  rw [List.all_eq_true]
  intro c hc
  simp [Filter.includes, List.elem_iff, hc]

/-- C6: `Filter.combine` (the source's `intersect`) is commutative and
associative up to set equality (membership), `combine [F]` and
`combine [F, F]` are `equals`-equal to `F` (for the duplicate-free filters
the program builds), membership in `filter_union` is disjunction of
memberships, and membership in a two-filter `combine` is conjunction. -/
theorem c6_filter_algebra :
    (∀ (A B : Filter) (s : State),
      (Filter.combine [A, B]).includes s = (Filter.combine [B, A]).includes s) ∧
    (∀ (A B C : Filter) (s : State),
      (Filter.combine [Filter.combine [A, B], C]).includes s =
        (Filter.combine [A, Filter.combine [B, C]]).includes s) ∧
    (∀ (A B C : Filter) (s : State),
      (Filter.combine [A, B, C]).includes s =
        (Filter.combine [Filter.combine [A, B], C]).includes s) ∧
    (∀ F : Filter, F.constraints.Nodup → (Filter.combine [F]).equals F = true) ∧
    (∀ F : Filter, F.constraints.Nodup → (Filter.combine [F, F]).equals F = true) ∧
    (∀ (A B : List State) (s : State),
      (Filter.filter_union [A, B]).includes s = true ↔ s ∈ A ∨ s ∈ B) ∧
    (∀ (A B : Filter) (s : State),
      (Filter.combine [A, B]).includes s = true ↔
        A.includes s = true ∧ B.includes s = true) := by
  have hsingle : ∀ F : Filter, F.constraints.Nodup → Filter.combine [F] = F := by
    intro F h
    unfold Filter.combine
    simp only [List.foldl_nil]
    rw [jsSetDedup_eq_self _ h]
  refine ⟨?_, ?_, ?_, ?_, ?_, ?_, ?_⟩
  · intro A B s
    refine bool_eq_of_iff ?_
    rw [combine_includes, combine_includes]
    simp only [List.forall_mem_cons, ne_eq, List.cons_ne_nil, not_false_iff, true_and,
      List.forall_mem_nil, and_true]
    tauto
  · intro A B C s
    refine bool_eq_of_iff ?_
    simp only [combine_includes, List.forall_mem_cons, ne_eq, List.cons_ne_nil,
      not_false_iff, true_and, List.forall_mem_nil, and_true]
    tauto
  · intro A B C s
    refine bool_eq_of_iff ?_
    simp only [combine_includes, List.forall_mem_cons, ne_eq, List.cons_ne_nil,
      not_false_iff, true_and, List.forall_mem_nil, and_true]
    tauto
  · intro F h
    rw [hsingle F h]
    exact equals_self F
  · intro F h
    have : Filter.combine [F, F] = F := by
      unfold Filter.combine
      simp only [List.foldl_cons, List.foldl_nil]
      rw [jsSetDedup_eq_self _ h]
      have : F.constraints.filter (fun t => F.includes t) = F.constraints :=
        List.filter_eq_self.mpr (fun a ha => by simp [Filter.includes, List.elem_iff, ha])
      rw [this]
    rw [this]
    exact equals_self F
  · intro A B s
    unfold Filter.filter_union
    simp [Filter.includes, List.elem_iff, mem_jsSetDedup]
  · intro A B s
    rw [combine_includes]
    simp [List.forall_mem_cons]

/-- Witness for C6 at concrete filters. -/
theorem c6_filter_algebra_witness :
    (Filter.combine [⟨[State.deep]⟩]).equals ⟨[State.deep]⟩ = true ∧
    (Filter.combine [⟨[State.deep, State.water]⟩,
      ⟨[State.deep, State.water]⟩]).equals ⟨[State.deep, State.water]⟩ = true ∧
    (Filter.filter_union [[State.deep], [State.water]]).includes State.water = true := by
  have h := c6_filter_algebra
  exact ⟨h.2.2.2.1 ⟨[State.deep]⟩ (by decide),
    h.2.2.2.2.1 ⟨[State.deep, State.water]⟩ (by decide),
    (h.2.2.2.2.2.1 [State.deep] [State.water] State.water).mpr (Or.inr (by decide))⟩

/-- Sum of all bias values recorded for state `s`. -/
def biasTotal (bias : List (State × ℚ)) (s : State) : ℚ :=
  ((bias.filter (fun kv => kv.1 = s)).map Prod.snd).sum

/-- Sum of the bias values for `s` that pass the candidate guard. -/
def biasApplied (S : List State) (bias : List (State × ℚ)) (s : State) : ℚ :=
  ((bias.filter (fun kv => S.contains kv.1 && kv.1 = s)).map Prod.snd).sum

theorem addWeight_map (l : List State) (hnd : l.Nodup) (w : State → ℚ)
    (key : State) (v : ℚ) :
    addWeight (l.map (fun s => (s, w s))) key v =
      l.map (fun s => (s, if s = key then w s + v else w s)) := by
  induction l with
  | nil => rfl
  | cons t ts ih =>
      simp only [List.map_cons]
      show (if t = key then (t, w t + v) :: ts.map (fun s => (s, w s))
        else (t, w t) :: addWeight (ts.map (fun s => (s, w s))) key v) = _
      by_cases ht : t = key
      · subst ht
        rw [if_pos rfl, if_pos rfl]
        congr 1
        refine (List.map_congr_left ?_).symm
        intro s hs
        rw [if_neg]
        intro h
        subst h
        exact (List.nodup_cons.mp hnd).1 hs
      · rw [if_neg ht, if_neg ht, ih (List.nodup_cons.mp hnd).2]

theorem foldl_addWeight (S : List State) (states : List State) (hnd : states.Nodup)
    (bias : List (State × ℚ)) (w : State → ℚ) :
    bias.foldl
      (fun acc kv => if S.contains kv.1 then addWeight acc kv.1 kv.2 else acc)
      (states.map (fun s => (s, w s)))
    = states.map (fun s => (s, w s + biasApplied S bias s)) := by
  induction bias generalizing w with
  | nil =>
      simp only [List.foldl_nil]
      refine List.map_congr_left ?_
      intro s _
      simp [biasApplied]
  | cons kv rest ih =>
      simp only [List.foldl_cons]
      by_cases hg : S.contains kv.1
      · rw [if_pos hg, addWeight_map states hnd w kv.1 kv.2,
          ih (fun s => if s = kv.1 then w s + kv.2 else w s)]
        refine List.map_congr_left ?_
        intro s _
        have : biasApplied S (kv :: rest) s =
            (if kv.1 = s then kv.2 else 0) + biasApplied S rest s := by
          unfold biasApplied
          by_cases hk : kv.1 = s
          · rw [List.filter_cons_of_pos (by rw [Bool.and_eq_true]; exact ⟨hg, by simp [hk]⟩)]
            simp [hk]
          · rw [List.filter_cons_of_neg (by simp [hk])]
            simp [hk]
        rw [this]
        by_cases hs : s = kv.1
        · subst hs; simp; ring
        · have : ¬ kv.1 = s := fun h => hs h.symm
          simp [hs, this]
      · rw [if_neg hg, ih w]
        refine List.map_congr_left ?_
        intro s _
        have : biasApplied S (kv :: rest) s = biasApplied S rest s := by
          unfold biasApplied
          rw [List.filter_cons_of_neg
            (by intro hcontra; rw [Bool.and_eq_true] at hcontra; exact hg hcontra.1)]
        rw [this]

/-- `filteredWeights` in closed form: one entry per distinct candidate, in
candidate order, of weight `1 +` the total bias recorded for it; bias
entries keyed outside the candidate set contribute nothing. -/
theorem filteredWeights_eq (sq : Square) (hnd : sq.states.Nodup)
    (bias : List (State × ℚ)) :
    filteredWeights sq bias =
      sq.states.map (fun s => (s, 1 + biasTotal bias s)) := by
  unfold filteredWeights
  rw [jsSetDedup_eq_self _ hnd,
    foldl_addWeight sq.states sq.states hnd bias (fun _ => (1 : ℚ))]
  refine List.map_congr_left ?_
  intro s hs
  have : biasApplied sq.states bias s = biasTotal bias s := by
    unfold biasApplied biasTotal
    congr 1
    congr 1
    refine List.filter_congr ?_
    intro kv _
    by_cases hk : kv.1 = s
    · subst hk
      simp [List.elem_iff, hs]
    · simp [hk]
  rw [this]

theorem weightedRandomGo_mem (weights : List (State × ℚ)) (rand : ℚ) (k : State)
    (h : weightedRandomGo weights rand = some k) : k ∈ weights.map Prod.fst := by
  induction weights generalizing rand with
  | nil => cases h
  | cons kv t ih =>
      unfold weightedRandomGo at h
      by_cases hc : rand - kv.2 < 0
      · rw [if_pos hc] at h
        simp [← Option.some.inj h]
      · rw [if_neg hc] at h
        exact List.mem_cons_of_mem _ (ih (rand - kv.2) h)

theorem weightedRandomGo_total (weights : List (State × ℚ)) (rand : ℚ)
    (hpos : ∀ kv ∈ weights, 0 ≤ kv.2) (h0 : 0 ≤ rand)
    (h1 : rand < (weights.map Prod.snd).sum) :
    ∃ k, weightedRandomGo weights rand = some k := by
  induction weights generalizing rand with
  | nil => simp at h1; exact absurd h1 (not_lt.mpr h0)
  | cons kv t ih =>
      unfold weightedRandomGo
      by_cases hc : rand - kv.2 < 0
      · exact ⟨kv.1, by rw [if_pos hc]⟩
      · rw [if_neg hc]
        refine ih (rand - kv.2) (fun x hx => hpos x (List.mem_cons_of_mem _ hx))
          (by linarith [not_lt.mp hc]) ?_
        have : (List.map Prod.snd (kv :: t)).sum = kv.2 + (t.map Prod.snd).sum := by
          simp
        rw [this] at h1
        linarith

theorem weightedRandomGo_uniform (l : List State) (i : Nat) (hi : i < l.length)
    (rand : ℚ) (hlo : (i : ℚ) ≤ rand) (hhi : rand < (i : ℚ) + 1) :
    weightedRandomGo (l.map (fun s => (s, (1 : ℚ)))) rand = some (l.get ⟨i, hi⟩) := by
  induction l generalizing i rand with
  | nil => cases hi
  | cons s0 t ih =>
      cases i with
      | zero =>
          show (if rand - 1 < 0 then some s0
            else weightedRandomGo (t.map (fun s => (s, (1 : ℚ)))) (rand - 1)) =
              some ((s0 :: t).get ⟨0, hi⟩)
          rw [if_pos (by push_cast at hhi; linarith)]
          rfl
      | succ j =>
          show (if rand - 1 < 0 then some s0
            else weightedRandomGo (t.map (fun s => (s, (1 : ℚ)))) (rand - 1)) =
              some ((s0 :: t).get ⟨j + 1, hi⟩)
          rw [if_neg (by push_cast at hlo; linarith)]
          have hj : j < t.length := Nat.lt_of_succ_lt_succ hi
          have := ih j hj (rand - 1) (by push_cast at hlo ⊢; linarith)
            (by push_cast at hhi ⊢; linarith)
          rw [this]
          rfl

/-- C4: for a duplicate-free candidate list, the collapse weight table
assigns each candidate the effective weight `1 + bias(s)` in candidate
order, ignoring bias entries keyed outside the candidate set; the result
sits at the same position; with non-negative bias, a non-empty candidate
list and a draw `r ∈ [0,1)` the drawn state is one of the candidates; and
with an empty bias the `i`-th candidate is drawn exactly when
`r·n ∈ [i, i+1)` — the uniform distribution over candidates. -/
theorem c4_weighted_collapse (sq : Square) (bias : List (State × ℚ)) (r : ℚ)
    (hnd : sq.states.Nodup) :
    (sq.collapse bias r).pos = sq.pos ∧
    filteredWeights sq bias = sq.states.map (fun s => (s, 1 + biasTotal bias s)) ∧
    ((∀ kv ∈ bias, 0 ≤ kv.2) → sq.states ≠ [] → 0 ≤ r → r < 1 →
      ∃ s, (sq.collapse bias r).state = some s ∧ s ∈ sq.states) ∧
    (∀ i : Nat, ∀ hi : i < sq.states.length,
      (i : ℚ) ≤ r * sq.states.length → r * sq.states.length < (i : ℚ) + 1 →
      (sq.collapse [] r).state = some (sq.states.get ⟨i, hi⟩)) := by
  have hfw := filteredWeights_eq sq hnd bias
  refine ⟨rfl, hfw, ?_, ?_⟩
  · intro hpos hne h0 h1
    have hwpos : ∀ kv ∈ filteredWeights sq bias, 0 ≤ kv.2 := by
      rw [hfw]
      intro kv hkv
      rcases List.mem_map.mp hkv with ⟨s, _, rfl⟩
      have : 0 ≤ biasTotal bias s := by
        unfold biasTotal
        refine List.sum_nonneg ?_
        intro q hq
        rcases List.mem_map.mp hq with ⟨kv2, hkv2, rfl⟩
        exact hpos kv2 (List.mem_filter.mp hkv2).1
      simp only
      linarith
    have hsum : (1 : ℚ) ≤ ((filteredWeights sq bias).map Prod.snd).sum := by
      rw [hfw]
      rcases List.exists_cons_of_ne_nil hne with ⟨s0, t, hst⟩
      rw [hst]
      simp only [List.map_cons, List.map_map, List.sum_cons]
      have h1' : 0 ≤ biasTotal bias s0 := by
        unfold biasTotal
        refine List.sum_nonneg ?_
        intro q hq
        rcases List.mem_map.mp hq with ⟨kv2, hkv2, rfl⟩
        exact hpos kv2 (List.mem_filter.mp hkv2).1
      have h2' : 0 ≤ (t.map ((fun x => x.2) ∘ fun s => (s, 1 + biasTotal bias s))).sum := by
        refine List.sum_nonneg ?_
        intro q hq
        rcases List.mem_map.mp hq with ⟨s, _, rfl⟩
        have : 0 ≤ biasTotal bias s := by
          unfold biasTotal
          refine List.sum_nonneg ?_
          intro q2 hq2
          rcases List.mem_map.mp hq2 with ⟨kv2, hkv2, rfl⟩
          exact hpos kv2 (List.mem_filter.mp hkv2).1
        simp only [Function.comp_apply]
        linarith
      simp only [Function.comp_apply] at h2' ⊢
      linarith
    have hS : 0 < ((filteredWeights sq bias).map Prod.snd).sum := by linarith
    obtain ⟨k, hk⟩ := weightedRandomGo_total (filteredWeights sq bias)
      (r * ((filteredWeights sq bias).map Prod.snd).sum) hwpos
      (mul_nonneg h0 (le_of_lt hS))
      (by nlinarith)
    refine ⟨k, hk, ?_⟩
    have := weightedRandomGo_mem _ _ _ hk
    rw [hfw] at this
    simp only [List.map_map] at this
    rcases List.mem_map.mp this with ⟨s, hs, hsk⟩
    simp only [Function.comp_apply] at hsk
    rw [← hsk]
    exact hs
  · intro i hi hlo hhi
    have hfw0 := filteredWeights_eq sq hnd []
    have hmap : sq.states.map (fun s => (s, 1 + biasTotal [] s)) =
        sq.states.map (fun s => (s, (1 : ℚ))) := by
      refine List.map_congr_left ?_
      intro s _
      simp [biasTotal]
    show weightedRandom (filteredWeights sq []) r = _
    unfold weightedRandom
    rw [hfw0, hmap]
    have hsum : ((sq.states.map (fun s => (s, (1 : ℚ)))).map Prod.snd).sum =
        (sq.states.length : ℚ) := by
      rw [List.map_map]
      have h1 : (Prod.snd ∘ fun s : State => (s, (1 : ℚ))) = fun _ => (1 : ℚ) := rfl
      rw [h1, List.map_const', List.sum_replicate]
      simp
    rw [hsum]
    exact weightedRandomGo_uniform sq.states i hi (r * sq.states.length) hlo hhi

/-- Witness for C4 at the fresh 7-candidate cell: a water-bias draw at
`r = 0`, and the uniform no-bias draw at `r = 3/7` landing on the fourth
catalog state. -/
theorem c4_weighted_collapse_witness :
    (Square.collapse (freshSquare 0 0) [(State.water, 3)] 0).pos = (0, 0) ∧
    filteredWeights (freshSquare 0 0) [(State.water, 3)] =
      (freshSquare 0 0).states.map (fun s => (s, 1 + biasTotal [(State.water, 3)] s)) ∧
    (∃ s, (Square.collapse (freshSquare 0 0) [(State.water, 3)] 0).state = some s ∧
      s ∈ (freshSquare 0 0).states) ∧
    (Square.collapse (freshSquare 0 0) [] (3 / 7)).state =
      some ((freshSquare 0 0).states.get ⟨3, by decide⟩) := by
  have h := c4_weighted_collapse (freshSquare 0 0) [(State.water, 3)] 0 (by decide)
  have h2 := c4_weighted_collapse (freshSquare 0 0) [] (3 / 7) (by decide)
  refine ⟨h.1, h.2.1, ?_, ?_⟩
  · refine h.2.2.1 ?_ (by decide) le_rfl (by norm_num)
    intro kv hkv
    rcases List.mem_singleton.mp hkv with rfl
    norm_num
  · refine h2.2.2.2 3 (by decide) ?_ ?_
    · show (3 : ℚ) ≤ 3 / 7 * ((freshSquare 0 0).states.length : ℚ)
      norm_num [freshSquare, allStates]
    · show (3 : ℚ) / 7 * ((freshSquare 0 0).states.length : ℚ) < (3 : ℚ) + 1
      norm_num [freshSquare, allStates]

theorem one_le_sum_snd (l : List State) (f : State → ℚ) (hf : ∀ s, 0 ≤ f s)
    (hne : l ≠ []) :
    1 ≤ ((l.map (fun s => (s, 1 + f s))).map Prod.snd).sum := by
  rcases List.exists_cons_of_ne_nil hne with ⟨a, t, rfl⟩
  simp only [List.map_cons, List.sum_cons]
  have ht : 0 ≤ ((t.map (fun s => (s, 1 + f s))).map Prod.snd).sum := by
    refine List.sum_nonneg ?_
    intro q hq
    rcases List.mem_map.mp hq with ⟨p, hp, rfl⟩
    rcases List.mem_map.mp hp with ⟨s, _, rfl⟩
    have := hf s
    show (0 : ℚ) ≤ 1 + f s
    linarith
  have := hf a
  show (1 : ℚ) ≤ (a, 1 + f a).2 + ((t.map (fun s => (s, 1 + f s))).map Prod.snd).sum
  show (1 : ℚ) ≤ 1 + f a + ((t.map (fun s => (s, 1 + f s))).map Prod.snd).sum
  linarith

theorem biasApplied_nonneg (S : List State) (bias : List (State × ℚ)) (s : State)
    (hpos : ∀ kv ∈ bias, 0 ≤ kv.2) : 0 ≤ biasApplied S bias s := by
  unfold biasApplied
  refine List.sum_nonneg ?_
  intro q hq
  rcases List.mem_map.mp hq with ⟨kv, hkv, rfl⟩
  exact hpos kv (List.mem_filter.mp hkv).1

theorem filteredWeights_of_empty (sq : Square) (h : sq.states = [])
    (bias : List (State × ℚ)) : filteredWeights sq bias = [] := by
  unfold filteredWeights
  simp only [h]
  have hd : jsSetDedup ([] : List State) = [] := rfl
  rw [hd]
  simp only [List.map_nil]
  induction bias with
  | nil => rfl
  | cons kv t ih =>
      simp only [List.foldl_cons]
      rw [if_neg (by simp)]
      exact ih

/-- C9 counterexample: at an empty-candidate cell every effective weight
is absent (total weight 0), yet `collapse` does not fail — it silently
returns a `CollapedSquare` carrying the undefined state marker. -/
theorem c9_collapse_undefined_counterexample :
    ((filteredWeights ⟨(0, 0), []⟩ []).map Prod.snd).sum = 0 ∧
    Square.collapse ⟨(0, 0), []⟩ [] 0 = ⟨(0, 0), none⟩ := by
  exact ⟨rfl, rfl⟩

/-- C9 amended: with non-negative bias the total effective weight is zero
exactly when the candidate set is empty, and in that case the draw returns
no state, so `collapse` silently yields a collapsed cell at the same
position whose state is the undefined marker (`none`) — no concrete
default state is produced, and no error is raised at collapse time. -/
theorem c9_zero_total_undefined_draw (sq : Square) (bias : List (State × ℚ)) (r : ℚ)
    (hpos : ∀ kv ∈ bias, 0 ≤ kv.2) :
    (((filteredWeights sq bias).map Prod.snd).sum = 0 ↔ sq.states = []) ∧
    (sq.states = [] →
      Square.collapse sq bias r = ⟨sq.pos, none⟩) := by
  constructor
  · constructor
    · intro hsum
      by_contra hne
      have hfw : filteredWeights sq bias =
          (jsSetDedup sq.states).map
            (fun s => (s, (1 : ℚ) + biasApplied sq.states bias s)) := by
        unfold filteredWeights
        have := foldl_addWeight sq.states (jsSetDedup sq.states)
          (nodup_jsSetDedup sq.states) bias (fun _ => (1 : ℚ))
        exact this
      rcases List.exists_cons_of_ne_nil hne with ⟨s0, t, hst⟩
      have hs0 : s0 ∈ jsSetDedup sq.states := by
        rw [mem_jsSetDedup, hst]
        exact List.mem_cons_self _ _
      rw [hfw] at hsum
      have hone := one_le_sum_snd (jsSetDedup sq.states)
        (biasApplied sq.states bias)
        (fun s => biasApplied_nonneg sq.states bias s hpos)
        (List.ne_nil_of_mem hs0)
      linarith
    · intro h
      rw [filteredWeights_of_empty sq h bias]
      rfl
  · intro h
    unfold Square.collapse
    rw [filteredWeights_of_empty sq h bias]
    rfl

/-- Witness for C9's amended statement at the concrete empty cell. -/
theorem c9_zero_total_undefined_draw_witness :
    (((filteredWeights ⟨(2, 3), []⟩ [(State.snow, 5)]).map Prod.snd).sum = 0 ↔
      (⟨(2, 3), []⟩ : Square).states = []) ∧
    Square.collapse ⟨(2, 3), []⟩ [(State.snow, 5)] 0 = ⟨(2, 3), none⟩ := by
  have h := c9_zero_total_undefined_draw ⟨(2, 3), []⟩ [(State.snow, 5)] 0
    (by intro kv hkv; rcases List.mem_singleton.mp hkv with rfl; norm_num)
  exact ⟨h.1, h.2 rfl⟩

theorem get_eq_some_iff (g : Grid) (x y : ℤ) (c : Cell) :
    g.get x y = some c ↔
      0 ≤ x ∧ 0 ≤ y ∧ ∃ col, g.grid.get? x.toNat = some col ∧
        col.get? y.toNat = some c := by
  unfold Grid.get
  by_cases hxy : 0 ≤ x ∧ 0 ≤ y
  · rw [if_pos hxy, Option.bind_eq_some]
    constructor
    · rintro ⟨col, h1, h2⟩
      exact ⟨hxy.1, hxy.2, col, h1, h2⟩
    · rintro ⟨_, _, col, h1, h2⟩
      exact ⟨col, h1, h2⟩
  · rw [if_neg hxy]
    constructor
    · intro hc; cases hc
    · rintro ⟨hx, hy, _⟩
      exact absurd ⟨hx, hy⟩ hxy

theorem mem_colSquarePositions (x : ℕ) (col : List Cell) (p : ℤ × ℤ) :
    p ∈ colSquarePositions x col ↔
      ∃ (j : ℕ) (sq : Square), col.get? j = some (Cell.sq sq) ∧
        p = ((x : ℤ), (j : ℤ)) := by
  unfold colSquarePositions
  rw [List.mem_filterMap]
  constructor
  · rintro ⟨j, _, hf⟩
    match hget : col.get? j with
    | some (Cell.sq sq) =>
        rw [hget] at hf
        exact ⟨j, sq, hget, (Option.some.inj hf).symm⟩
    | some (Cell.coll c) => rw [hget] at hf; cases hf
    | none => rw [hget] at hf; cases hf
  · rintro ⟨j, sq, hget, rfl⟩
    refine ⟨j, ?_, ?_⟩
    · rw [List.mem_range]
      by_contra hk
      rw [List.get?_eq_none.mpr (Nat.le_of_not_lt hk)] at hget
      exact Option.noConfusion hget
    · rw [hget]

theorem mem_squarePositions (g : Grid) (p : ℤ × ℤ) :
    p ∈ squarePositions g ↔ ∃ sq, g.get p.1 p.2 = some (Cell.sq sq) := by
  unfold squarePositions
  rw [List.mem_flatMap]
  constructor
  · rintro ⟨i, hi, hp⟩
    rw [mem_colSquarePositions] at hp
    rcases hp with ⟨j, sq, hget, rfl⟩
    rw [List.mem_range] at hi
    refine ⟨sq, ?_⟩
    rw [get_eq_some_iff]
    refine ⟨Int.ofNat_nonneg i, Int.ofNat_nonneg j, (g.grid.get? i).getD [], ?_, by simpa using hget⟩
    match hcol : g.grid.get? i with
    | some col => simp [hcol]
    | none =>
        rw [List.get?_eq_none] at hcol
        omega
  · rintro ⟨sq, hget⟩
    rw [get_eq_some_iff] at hget
    rcases hget with ⟨hx, hy, col, hcol, hcell⟩
    refine ⟨p.1.toNat, ?_, ?_⟩
    · rw [List.mem_range]
      by_contra hk
      rw [List.get?_eq_none.mpr (Nat.le_of_not_lt hk)] at hcol
      exact Option.noConfusion hcol
    · rw [mem_colSquarePositions]
      refine ⟨p.2.toNat, sq, by rw [hcol]; simpa using hcell, ?_⟩
      rw [Int.toNat_of_nonneg hx, Int.toNat_of_nonneg hy]

theorem nodup_colSquarePositions (x : ℕ) (col : List Cell) :
    (colSquarePositions x col).Nodup := by
  unfold colSquarePositions
  refine List.Nodup.filterMap ?_ (List.nodup_range _)
  intro j j' b hb hb'
  have hbj : b = ((x : ℤ), (j : ℤ)) := by
    match hget : col.get? j with
    | some (Cell.sq sq) => rw [hget] at hb; exact (Option.some.inj hb).symm
    | some (Cell.coll c) => rw [hget] at hb; cases hb
    | none => rw [hget] at hb; cases hb
  have hbj' : b = ((x : ℤ), (j' : ℤ)) := by
    match hget : col.get? j' with
    | some (Cell.sq sq) => rw [hget] at hb'; exact (Option.some.inj hb').symm
    | some (Cell.coll c) => rw [hget] at hb'; cases hb'
    | none => rw [hget] at hb'; cases hb'
  rw [hbj] at hbj'
  have := (Prod.mk.injEq _ _ _ _).mp hbj'
  omega

theorem nodup_squarePositions (g : Grid) : (squarePositions g).Nodup := by
  unfold squarePositions
  rw [List.nodup_flatMap]
  constructor
  · intro x _
    exact nodup_colSquarePositions x _
  · have : List.Pairwise (· ≠ ·) (List.range g.grid.length) :=
      (List.nodup_range _)
    refine List.Pairwise.imp ?_ this
    intro a b hab
    intro p hpa hpb
    rw [mem_colSquarePositions] at hpa hpb
    rcases hpa with ⟨j, _, _, rfl⟩
    rcases hpb with ⟨j', _, _, hpeq⟩
    have := (Prod.mk.injEq _ _ _ _).mp hpeq
    omega

theorem foldl_congr_fun {α β : Type} (l : List β) (f1 f2 : α → β → α) (a : α)
    (h : ∀ acc b, b ∈ l → f1 acc b = f2 acc b) : l.foldl f1 a = l.foldl f2 a := by
  induction l generalizing a with
  | nil => rfl
  | cons b t ih =>
      simp only [List.foldl_cons]
      rw [h a b (List.mem_cons_self _ _)]
      exact ih _ (fun acc b2 hb2 => h acc b2 (List.mem_cons_of_mem _ hb2))

theorem setFiltersOrd_stops_full (g : Grid) (dirs : List (ℤ × ℤ)) (fuel : Nat)
    (x y : ℤ) (f : Filter) (fl : FilterList) (completed : List (ℤ × ℤ))
    (hall : f.hasAll = true) :
    setFiltersOrd g dirs fuel x y f fl completed = fl := by
  cases fuel with
  | zero => rfl
  | succ n => simp [setFiltersOrd, hall]

theorem setFiltersOrd_stops_at_coll (g : Grid) (dirs : List (ℤ × ℤ)) (fuel : Nat)
    (x y : ℤ) (f : Filter) (fl : FilterList) (completed : List (ℤ × ℤ))
    (c : CollapedSquare) (hget : g.get x y = some (Cell.coll c)) :
    setFiltersOrd g dirs fuel x y f fl completed = fl := by
  cases fuel with
  | zero => rfl
  | succ n =>
      simp only [setFiltersOrd]
      by_cases hall : f.hasAll
      · rw [if_pos hall]
      · rw [if_neg hall, hget]

theorem setFiltersOrd_succ_sq (g : Grid) (dirs : List (ℤ × ℤ)) (fuel : Nat)
    (x y : ℤ) (f : Filter) (fl : FilterList) (completed : List (ℤ × ℤ))
    (square : Square) (hget : g.get x y = some (Cell.sq square))
    (hall : ¬ f.hasAll = true) :
    setFiltersOrd g dirs (fuel + 1) x y f fl completed =
      (if (x, y) ∈ completed then fl
       else if (Filter.mk square.states).equals f = true then fl
       else
        dirs.foldl
          (fun acc d => setFiltersOrd g dirs fuel (x + d.1) (y + d.2)
            (Filter.filter_union
              ((f.apply square.states).map (fun s => (Constraints s).states)))
            acc (completed ++ [(x, y)]))
          (pushFilter fl square.pos (Filter.mk (f.apply square.states)))) := by
  conv_lhs => rw [setFiltersOrd]
  rw [if_neg hall, hget]

theorem setFilters_fuel_stable (g : Grid) (dirs : List (ℤ × ℤ)) :
    ∀ (k : Nat) (x y : ℤ) (f : Filter) (fl : FilterList) (completed : List (ℤ × ℤ)),
      completed.Nodup → (∀ p ∈ completed, p ∈ squarePositions g) →
      (squarePositions g).length - completed.length ≤ k →
      ∀ fuel, k + 1 ≤ fuel →
        setFiltersOrd g dirs fuel x y f fl completed =
          setFiltersOrd g dirs (k + 1) x y f fl completed := by
  intro k
  induction k with
  | zero =>
      intro x y f fl completed hnd hsub hlen fuel hfuel
      obtain ⟨m, rfl⟩ : ∃ m, fuel = m + 1 := ⟨fuel - 1, by omega⟩
      have hcov : ∀ p ∈ squarePositions g, p ∈ completed := by
        have hsubF : completed.toFinset ⊆ (squarePositions g).toFinset := by
          intro a ha
          rw [List.mem_toFinset] at *
          exact hsub a ha
        have hcard1 : completed.toFinset.card = completed.length :=
          List.toFinset_card_of_nodup hnd
        have hcard2 : (squarePositions g).toFinset.card = (squarePositions g).length :=
          List.toFinset_card_of_nodup (nodup_squarePositions g)
        have heq : completed.toFinset = (squarePositions g).toFinset :=
          Finset.eq_of_subset_of_card_le hsubF (by omega)
        intro p hp
        rw [← List.mem_toFinset, heq, List.mem_toFinset]
        exact hp
      by_cases hall : f.hasAll
      · rw [setFiltersOrd_stops_full g dirs _ x y f fl completed hall,
          setFiltersOrd_stops_full g dirs _ x y f fl completed hall]
      · cases hget : g.get x y with
        | none =>
            rw [setFiltersOrd_stops_at_absent g x y hget dirs _ f fl completed,
              setFiltersOrd_stops_at_absent g x y hget dirs _ f fl completed]
        | some c =>
            cases c with
            | coll c =>
                rw [setFiltersOrd_stops_at_coll g dirs _ x y f fl completed c hget,
                  setFiltersOrd_stops_at_coll g dirs _ x y f fl completed c hget]
            | sq square =>
                have hmem : (x, y) ∈ completed :=
                  hcov (x, y) ((mem_squarePositions g (x, y)).mpr ⟨square, hget⟩)
                rw [setFiltersOrd_succ_sq g dirs m x y f fl completed square hget hall,
                  setFiltersOrd_succ_sq g dirs 0 x y f fl completed square hget hall,
                  if_pos hmem, if_pos hmem]
  | succ k ih =>
      intro x y f fl completed hnd hsub hlen fuel hfuel
      obtain ⟨m, rfl⟩ : ∃ m, fuel = m + 1 := ⟨fuel - 1, by omega⟩
      by_cases hall : f.hasAll
      · rw [setFiltersOrd_stops_full g dirs _ x y f fl completed hall,
          setFiltersOrd_stops_full g dirs _ x y f fl completed hall]
      · cases hget : g.get x y with
        | none =>
            rw [setFiltersOrd_stops_at_absent g x y hget dirs _ f fl completed,
              setFiltersOrd_stops_at_absent g x y hget dirs _ f fl completed]
        | some c =>
            cases c with
            | coll c =>
                rw [setFiltersOrd_stops_at_coll g dirs _ x y f fl completed c hget,
                  setFiltersOrd_stops_at_coll g dirs _ x y f fl completed c hget]
            | sq square =>
                rw [setFiltersOrd_succ_sq g dirs m x y f fl completed square hget hall,
                  setFiltersOrd_succ_sq g dirs (k + 1) x y f fl completed square hget hall]
                by_cases hmem : (x, y) ∈ completed
                · rw [if_pos hmem, if_pos hmem]
                · rw [if_neg hmem, if_neg hmem]
                  by_cases heq : (Filter.mk square.states).equals f = true
                  · rw [if_pos heq, if_pos heq]
                  · rw [if_neg heq, if_neg heq]
                    have hnd' : (completed ++ [(x, y)]).Nodup := by
                      rw [List.nodup_append]
                      exact ⟨hnd, List.nodup_singleton _,
                        by intro a ha hb; rw [List.mem_singleton] at hb; subst hb; exact hmem ha⟩
                    have hsub' : ∀ p ∈ completed ++ [(x, y)], p ∈ squarePositions g := by
                      intro p hp
                      rcases List.mem_append.mp hp with hp | hp
                      · exact hsub p hp
                      · rw [List.mem_singleton] at hp
                        subst hp
                        exact (mem_squarePositions g (x, y)).mpr ⟨square, hget⟩
                    have hlen' : (squarePositions g).length -
                        (completed ++ [(x, y)]).length ≤ k := by
                      rw [List.length_append, List.length_singleton]
                      omega
                    refine foldl_congr_fun dirs _ _ _ ?_
                    intro acc d _
                    rw [ih (x + d.1) (y + d.2) _ acc (completed ++ [(x, y)])
                        hnd' hsub' hlen' m (by omega),
                      ih (x + d.1) (y + d.2) _ acc (completed ++ [(x, y)])
                        hnd' hsub' hlen' (k + 1) (by omega)]

theorem range_map_getD_length (L : List (List Cell)) :
    (List.range L.length).map (fun x => ((L.get? x).getD []).length) =
      L.map List.length := by
  induction L with
  | nil => rfl
  | cons c t ih =>
      rw [List.length_cons, List.range_succ_eq_map, List.map_cons, List.map_map]
      congr 1

theorem squarePositions_length_le (g : Grid) :
    (squarePositions g).length ≤ cellCount g := by
  unfold squarePositions cellCount
  rw [List.length_flatMap]
  have h2 : ((List.range g.grid.length).map
        (fun x => (colSquarePositions x ((g.grid.get? x).getD [])).length)).sum ≤
      ((List.range g.grid.length).map
        (fun x => ((g.grid.get? x).getD []).length)).sum := by
    refine List.sum_le_sum ?_
    intro i _
    unfold colSquarePositions
    calc (List.filterMap _ (List.range ((g.grid.get? i).getD []).length)).length
        ≤ (List.range ((g.grid.get? i).getD []).length).length :=
          List.length_filterMap_le _ _
      _ = ((g.grid.get? i).getD []).length := List.length_range _
  rw [range_map_getD_length] at h2
  exact h2

/-- The 2×2 grid whose corner has been collapsed to snow: from it, the two
seed branches reach the cells `(1,1)` and `(0,1)` by different routes, so
each of the three explored coordinates receives two independent deposits. -/
def revisitGrid : Grid :=
  Grid.setCell ⟨2, 2, Grid.mkCells 2 2⟩ 0 0 (Cell.coll ⟨(0, 0), some State.snow⟩)

/-- C2: exploration terminates — with fuel at least one more than the
number of uncollapsed squares (itself at most the number of grid cells),
`#setFilters` has stabilized: any larger recursion budget computes the
same accumulator, because a single path extends its own copy of the
visited list by one fresh square per level and so can never be longer than
the number of squares.  Distinct branches do revisit cells: in
`revisitGrid` the deposit list of cell `(1,1)` has two entries. -/
theorem c2_exploration_terminates (g : Grid) (x y : ℤ) (f : Filter) (fl : FilterList) :
    (∀ fuel, stdFuel g ≤ fuel →
      setFiltersOrd g stdDirs fuel x y f fl [] =
        setFiltersOrd g stdDirs (stdFuel g) x y f fl []) ∧
    stdFuel g ≤ cellCount g + 1 ∧
    (lookupFL
      (seedFiltersOrd stdDirs revisitGrid (0, 0)
        (Filter.mk (Constraints State.snow).states)) (1, 1)).map List.length =
      some 2 := by
  refine ⟨?_, ?_, by rfl⟩
  · intro fuel hfuel
    have := setFilters_fuel_stable g stdDirs (squarePositions g).length x y f fl []
      List.nodup_nil (by simp) (by simp) fuel (by simpa [stdFuel] using hfuel)
    simpa [stdFuel] using this
  · have := squarePositions_length_le g
    unfold stdFuel
    omega

/-- Witness for C2 on the 1×1 grid with surplus fuel. -/
theorem c2_exploration_terminates_witness :
    setFiltersOrd ⟨1, 1, Grid.mkCells 1 1⟩ stdDirs 9 0 0
      (Filter.mk (Constraints State.snow).states) [] [] =
    setFiltersOrd ⟨1, 1, Grid.mkCells 1 1⟩ stdDirs
      (stdFuel ⟨1, 1, Grid.mkCells 1 1⟩) 0 0
      (Filter.mk (Constraints State.snow).states) [] [] := by
  exact (c2_exploration_terminates ⟨1, 1, Grid.mkCells 1 1⟩ 0 0
    (Filter.mk (Constraints State.snow).states) []).1 9 (by decide)

theorem get_setCell_same (g : Grid) (x y : ℤ) (c : Cell) (v : Cell)
    (h : g.get x y = some c) : (g.setCell x y v).get x y = some v := by
  rw [get_eq_some_iff] at h
  rcases h with ⟨hx, hy, col, hcol, hcell⟩
  unfold Grid.setCell
  rw [if_pos ⟨hx, hy⟩, hcol]
  rw [get_eq_some_iff]
  refine ⟨hx, hy, col.set y.toNat v, ?_, ?_⟩
  · show ((g.grid.set x.toNat (col.set y.toNat v)).get? x.toNat) = _
    refine List.get?_set_eq_of_lt _ ?_
    by_contra hk
    rw [List.get?_eq_none.mpr (Nat.le_of_not_lt hk)] at hcol
    exact Option.noConfusion hcol
  · refine List.get?_set_eq_of_lt _ ?_
    by_contra hk
    rw [List.get?_eq_none.mpr (Nat.le_of_not_lt hk)] at hcell
    exact Option.noConfusion hcell

theorem get_setCell_other (g : Grid) (x y : ℤ) (v : Cell) (x' y' : ℤ)
    (hne : ¬ (x' = x ∧ y' = y)) : (g.setCell x y v).get x' y' = g.get x' y' := by
  unfold Grid.setCell
  by_cases hxy : 0 ≤ x ∧ 0 ≤ y
  · rw [if_pos hxy]
    match hcol : g.grid.get? x.toNat with
    | none => rfl
    | some col =>
        show Grid.get ⟨g.width, g.height, g.grid.set x.toNat (col.set y.toNat v)⟩ x' y' = _
        unfold Grid.get
        by_cases hxy' : 0 ≤ x' ∧ 0 ≤ y'
        · rw [if_pos hxy', if_pos hxy']
          by_cases hx'x : x' = x
          · subst hx'x
            have hy'y : y' ≠ y := fun h => hne ⟨rfl, h⟩
            show ((g.grid.set x'.toNat (col.set y.toNat v)).get? x'.toNat).bind _ = _
            have hlt : x'.toNat < g.grid.length := by
              by_contra hk
              rw [List.get?_eq_none.mpr (Nat.le_of_not_lt hk)] at hcol
              exact Option.noConfusion hcol
            rw [List.get?_set_eq_of_lt _ hlt, hcol]
            show (col.set y.toNat v).get? y'.toNat = col.get? y'.toNat
            refine List.get?_set_ne _ _ ?_
            omega
          · show ((g.grid.set x.toNat (col.set y.toNat v)).get? x'.toNat).bind _ = _
            rw [List.get?_set_ne _ _ (by omega)]
        · rw [if_neg hxy', if_neg hxy']
  · rw [if_neg hxy]

/-- Every key of the accumulator denotes an uncollapsed square of `g`. -/
def keysGood (g : Grid) (fl : FilterList) : Prop :=
  ∀ kv ∈ fl, ∃ sq, g.get kv.1.1 kv.1.2 = some (Cell.sq sq)

theorem foldl_preserve {α β : Type} (P : α → Prop) (l : List β) (f : α → β → α)
    (a : α) (ha : P a) (hstep : ∀ acc b, b ∈ l → P acc → P (f acc b)) :
    P (l.foldl f a) := by
  induction l generalizing a with
  | nil => exact ha
  | cons b t ih =>
      exact ih _ (hstep a b (List.mem_cons_self _ _) ha)
        (fun acc b2 hb2 => hstep acc b2 (List.mem_cons_of_mem _ hb2))

theorem keysGood_pushFilter (g : Grid) (fl : FilterList) (p : ℤ × ℤ) (f : Filter)
    (hgood : keysGood g fl) (hp : ∃ sq, g.get p.1 p.2 = some (Cell.sq sq)) :
    keysGood g (pushFilter fl p f) := by
  intro kv hkv
  unfold pushFilter at hkv
  by_cases hmem : fl.any (fun kv => kv.1 = p)
  · rw [if_pos hmem] at hkv
    rcases List.mem_map.mp hkv with ⟨kv0, hkv0, rfl⟩
    by_cases he : kv0.1 = p
    · rw [if_pos he]
      simpa [he] using hp
    · rw [if_neg he]
      exact hgood kv0 hkv0
  · rw [if_neg hmem] at hkv
    rcases List.mem_append.mp hkv with h | h
    · exact hgood kv h
    · rw [List.mem_singleton] at h
      subst h
      exact hp

theorem setFiltersOrd_keysGood (g : Grid) (hwf : wf g) (dirs : List (ℤ × ℤ)) :
    ∀ (fuel : Nat) (x y : ℤ) (f : Filter) (fl : FilterList)
      (completed : List (ℤ × ℤ)), keysGood g fl →
      keysGood g (setFiltersOrd g dirs fuel x y f fl completed) := by
  intro fuel
  induction fuel with
  | zero => intro x y f fl completed hgood; exact hgood
  | succ n ih =>
      intro x y f fl completed hgood
      by_cases hall : f.hasAll
      · rw [setFiltersOrd_stops_full g dirs _ x y f fl completed hall]
        exact hgood
      · cases hget : g.get x y with
        | none =>
            rw [setFiltersOrd_stops_at_absent g x y hget dirs _ f fl completed]
            exact hgood
        | some c =>
            cases c with
            | coll c =>
                rw [setFiltersOrd_stops_at_coll g dirs _ x y f fl completed c hget]
                exact hgood
            | sq square =>
                rw [setFiltersOrd_succ_sq g dirs n x y f fl completed square hget hall]
                by_cases hmem : (x, y) ∈ completed
                · rw [if_pos hmem]; exact hgood
                · rw [if_neg hmem]
                  by_cases heq : (Filter.mk square.states).equals f = true
                  · rw [if_pos heq]; exact hgood
                  · rw [if_neg heq]
                    have hpos : square.pos = (x, y) := hwf x y _ hget
                    refine foldl_preserve (keysGood g) dirs _ _ ?_ ?_
                    · exact keysGood_pushFilter g fl square.pos _ hgood
                        ⟨square, by rw [hpos]; exact hget⟩
                    · intro acc d _ hacc
                      exact ih _ _ _ acc _ hacc

theorem propagateStepCell_sq (g : Grid) (p : ℤ × ℤ) (fs : List Filter) (sq : Square)
    (hsq : g.get p.1 p.2 = some (Cell.sq sq)) :
    propagateStepCell g p fs =
      some (g.setCell p.1 p.2
        (Cell.sq ⟨sq.pos, (Filter.combine fs).apply sq.states⟩)) := by
  unfold propagateStepCell
  rw [hsq]

theorem propagate_total (g : Grid) (fl : FilterList) (hgood : keysGood g fl) :
    ∃ g', propagate g fl = some g' ∧
      (∀ x y c, g.get x y = some (Cell.coll c) → g'.get x y = some (Cell.coll c)) ∧
      (∀ x y sq, g.get x y = some (Cell.sq sq) →
        ∃ sq', g'.get x y = some (Cell.sq sq')) ∧
      (∀ x y, g.get x y = none → g'.get x y = none) := by
  induction fl generalizing g with
  | nil => exact ⟨g, rfl, fun _ _ _ h => h, fun x y sq h => ⟨sq, h⟩, fun _ _ h => h⟩
  | cons kv rest ih =>
      obtain ⟨p, fs⟩ := kv
      obtain ⟨sq, hsq⟩ := hgood (p, fs) (List.mem_cons_self _ _)
      have hstep : propagate g ((p, fs) :: rest) =
          propagate (g.setCell p.1 p.2
            (Cell.sq ⟨sq.pos, (Filter.combine fs).apply sq.states⟩)) rest := by
        show (propagateStepCell g p fs).bind _ = _
        rw [propagateStepCell_sq g p fs sq hsq]
        rfl
      set g1 := g.setCell p.1 p.2
        (Cell.sq ⟨sq.pos, (Filter.combine fs).apply sq.states⟩) with hg1
      have hgood1 : keysGood g1 rest := by
        intro kv2 hkv2
        obtain ⟨sq2, hsq2⟩ := hgood kv2 (List.mem_cons_of_mem _ hkv2)
        by_cases he : kv2.1.1 = p.1 ∧ kv2.1.2 = p.2
        · refine ⟨⟨sq.pos, (Filter.combine fs).apply sq.states⟩, ?_⟩
          rw [hg1, he.1, he.2]
          exact get_setCell_same g p.1 p.2 _ _ hsq
        · refine ⟨sq2, ?_⟩
          rw [hg1, get_setCell_other g p.1 p.2 _ kv2.1.1 kv2.1.2 he]
          exact hsq2
      obtain ⟨g', hrun, hcoll, hsq', hnone⟩ := ih g1 hgood1
      refine ⟨g', by rw [hstep]; exact hrun, ?_, ?_, ?_⟩
      · intro x y c hc
        refine hcoll x y c ?_
        rw [hg1, get_setCell_other g p.1 p.2 _ x y ?_]
        · exact hc
        · rintro ⟨rfl, rfl⟩
          rw [hsq] at hc
          cases hc
      · intro x y sq2 hc
        by_cases he : x = p.1 ∧ y = p.2
        · refine hsq' x y ⟨sq.pos, (Filter.combine fs).apply sq.states⟩ ?_
          rw [hg1, he.1, he.2]
          exact get_setCell_same g p.1 p.2 _ _ hsq
        · refine hsq' x y sq2 ?_
          rw [hg1, get_setCell_other g p.1 p.2 _ x y he]
          exact hc
      · intro x y hc
        refine hnone x y ?_
        rw [hg1, get_setCell_other g p.1 p.2 _ x y ?_]
        · exact hc
        · rintro ⟨rfl, rfl⟩
          rw [hsq] at hc
          cases hc

theorem wf_of_wfB (g : Grid) (h : wfB g = true) : wf g := by
  intro x y c hc
  rw [get_eq_some_iff] at hc
  rcases hc with ⟨hx, hy, col, hcol, hcell⟩
  unfold wfB at h
  rw [List.all_eq_true] at h
  have hxlen : x.toNat < g.grid.length := by
    by_contra hk
    rw [List.get?_eq_none.mpr (Nat.le_of_not_lt hk)] at hcol
    exact Option.noConfusion hcol
  have h1 := h x.toNat (by rw [List.mem_range]; exact hxlen)
  rw [List.all_eq_true] at h1
  have hylen : y.toNat < ((g.grid.get? x.toNat).getD []).length := by
    rw [hcol]
    by_contra hk
    rw [Option.getD_some] at hk
    rw [List.get?_eq_none.mpr (Nat.le_of_not_lt hk)] at hcell
    exact Option.noConfusion hcell
  have h2 := h1 y.toNat (by rw [List.mem_range]; exact hylen)
  rw [hcol] at h2
  rw [Option.getD_some] at h2
  rw [hcell] at h2
  have h3 : c.cpos = ((x.toNat : ℤ), (y.toNat : ℤ)) := by
    exact of_decide_eq_true h2
  rw [Int.toNat_of_nonneg hx, Int.toNat_of_nonneg hy] at h3
  exact h3

/-- C10: under grid coherence, every coordinate recorded by exploration
refers to an uncollapsed `Square` of the (unmutated) grid, so the finalize
phase finds a candidate list at every key and completes without error, and
every collapsed cell of the grid before the propagation is present,
unchanged, afterwards. -/
theorem c10_propagation_frames_collapsed (g : Grid) (hwf : wf g)
    (pos : ℤ × ℤ) (s : State) :
    (∀ kv ∈ seedFiltersOrd stdDirs g pos (Filter.mk (Constraints s).states),
      ∃ sq, g.get kv.1.1 kv.1.2 = some (Cell.sq sq)) ∧
    (∃ g', seedPropagation g pos s = some g') ∧
    (∀ g', seedPropagation g pos s = some g' →
      ∀ x y c, g.get x y = some (Cell.coll c) → g'.get x y = some (Cell.coll c)) := by
  have hkeys : keysGood g
      (seedFiltersOrd stdDirs g pos (Filter.mk (Constraints s).states)) := by
    unfold seedFiltersOrd
    refine foldl_preserve (keysGood g) stdDirs _ [] ?_ ?_
    · intro kv hkv; cases hkv
    · intro acc d _ hacc
      exact setFiltersOrd_keysGood g hwf stdDirs _ _ _ _ acc [] hacc
  obtain ⟨g', hrun, hcoll, _, _⟩ := propagate_total g _ hkeys
  refine ⟨hkeys, ⟨g', hrun⟩, ?_⟩
  intro g'' hrun' x y c hc
  unfold seedPropagation seedPropagationOrd at hrun'
  rw [hrun'] at hrun
  rcases Option.some.inj hrun with rfl
  exact hcoll x y c hc

/-- Witness for C10: propagating from the snow-collapsed corner of the
concrete 2×2 grid succeeds and leaves the collapsed corner untouched. -/
theorem c10_propagation_frames_collapsed_witness :
    ∃ g', seedPropagation revisitGrid (0, 0) State.snow = some g' ∧
      g'.get 0 0 = some (Cell.coll ⟨(0, 0), some State.snow⟩) := by
  have h := c10_propagation_frames_collapsed revisitGrid
    (wf_of_wfB revisitGrid (by decide)) (0, 0) State.snow
  obtain ⟨g', hrun⟩ := h.2.1
  exact ⟨g', hrun, h.2.2 g' hrun 0 0 ⟨(0, 0), some State.snow⟩ (by decide)⟩

theorem sum_map_set {α : Type} (f : α → ℕ) (l : List α) (i : ℕ) (a b : α)
    (h : l.get? i = some b) :
    ((l.set i a).map f).sum + f b = (l.map f).sum + f a := by
  induction l generalizing i with
  | nil => cases h
  | cons x t ih =>
      cases i with
      | zero =>
          have hb : b = x := (Option.some.inj h).symm
          subst hb
          show ((a :: t).map f).sum + f b = ((b :: t).map f).sum + f a
          simp only [List.map_cons, List.sum_cons]
          omega
      | succ j =>
          have h' : t.get? j = some b := h
          show ((x :: t.set j a).map f).sum + f b = ((x :: t).map f).sum + f a
          simp only [List.map_cons, List.sum_cons]
          have := ih j h'
          omega

theorem totalEntropy_setCell (g : Grid) (x y : ℤ) (cOld cNew : Cell)
    (h : g.get x y = some cOld) :
    totalEntropy (g.setCell x y cNew) + cellEntropy cOld =
      totalEntropy g + cellEntropy cNew := by
  rw [get_eq_some_iff] at h
  rcases h with ⟨hx, hy, col, hcol, hcell⟩
  unfold Grid.setCell
  rw [if_pos ⟨hx, hy⟩, hcol]
  show totalEntropy ⟨g.width, g.height, g.grid.set x.toNat (col.set y.toNat cNew)⟩ +
    cellEntropy cOld = _
  unfold totalEntropy
  have houter := sum_map_set (fun c => (c.map cellEntropy).sum) g.grid x.toNat
    (col.set y.toNat cNew) col hcol
  have hinner := sum_map_set cellEntropy col y.toNat cNew cOld hcell
  simp only at houter hinner ⊢
  omega

theorem propagateStepCell_some (g : Grid) (p : ℤ × ℤ) (fs : List Filter) (g1 : Grid)
    (h : propagateStepCell g p fs = some g1) :
    ∃ sq, g.get p.1 p.2 = some (Cell.sq sq) ∧
      g1 = g.setCell p.1 p.2
        (Cell.sq ⟨sq.pos, (Filter.combine fs).apply sq.states⟩) := by
  unfold propagateStepCell at h
  cases hget : g.get p.1 p.2 with
  | none => rw [hget] at h; cases h
  | some c =>
      cases c with
      | coll c => rw [hget] at h; cases h
      | sq sq =>
          rw [hget] at h
          exact ⟨sq, rfl, (Option.some.inj h).symm⟩

theorem propagate_entropy : ∀ (fl : FilterList) (g g' : Grid),
    propagate g fl = some g' → totalEntropy g' ≤ totalEntropy g := by
  intro fl
  induction fl with
  | nil =>
      intro g g' h
      have : g = g' := Option.some.inj h
      rw [this]
  | cons kv rest ih =>
      intro g g' h
      obtain ⟨p, fs⟩ := kv
      have h' : (propagateStepCell g p fs).bind (fun g1 => propagate g1 rest) =
          some g' := h
      rw [Option.bind_eq_some] at h'
      obtain ⟨g1, hstep, hrest⟩ := h'
      obtain ⟨sq, hget, rfl⟩ := propagateStepCell_some g p fs g1 hstep
      have hset := totalEntropy_setCell g p.1 p.2 (Cell.sq sq)
        (Cell.sq ⟨sq.pos, (Filter.combine fs).apply sq.states⟩) hget
      have hlen : ((Filter.combine fs).apply sq.states).length ≤ sq.states.length :=
        List.length_filter_le _ _
      have h1 := ih _ g' hrest
      unfold cellEntropy at hset
      simp only [Square.entropy] at hset
      omega

theorem collapse_state_some_nonempty (sq : Square) (bias : List (State × ℚ)) (r : ℚ)
    (s : State) (h : (sq.collapse bias r).state = some s) : sq.states ≠ [] := by
  intro hempty
  unfold Square.collapse at h
  rw [filteredWeights_of_empty sq hempty bias] at h
  cases h

/-- C3: whenever `step` can and does perform a collapse (it returns a
grid rather than throwing), the total entropy — the sum of candidate-set
sizes over uncollapsed cells — drops by at least 1: the collapsed cell
(nonempty, else the draw would have returned no state) leaves the sum and
the propagation commit only ever filters candidate lists. -/
theorem c3_entropy_decreases (g : Grid) (tie : Nat) (r : ℚ)
    (hcan : canStep g = true) (g' : Grid) (hstep : step g tie r = some g') :
    totalEntropy g' + 1 ≤ totalEntropy g := by
  unfold step at hstep
  rw [if_neg (by simp [hcan])] at hstep
  rw [Option.bind_eq_some] at hstep
  obtain ⟨sq, _, hstep⟩ := hstep
  rw [Option.bind_eq_some] at hstep
  obtain ⟨weights, _, hstep⟩ := hstep
  rw [Option.bind_eq_some] at hstep
  obtain ⟨target, htarget, hstep⟩ := hstep
  have htarget' : g.get sq.pos.1 sq.pos.2 = some (Cell.sq target) := by
    unfold asSquare at htarget
    cases hget : g.get sq.pos.1 sq.pos.2 with
    | none => rw [hget] at htarget; cases htarget
    | some c =>
        cases c with
        | coll c => rw [hget] at htarget; cases htarget
        | sq s => rw [hget] at htarget; rw [Option.some.inj htarget]
  unfold stepCollapse at hstep
  rw [Option.bind_eq_some] at hstep
  obtain ⟨s, hs, hrun⟩ := hstep
  have hne : target.states ≠ [] := collapse_state_some_nonempty target weights r s hs
  have hlen : 1 ≤ target.states.length := by
    cases hst : target.states with
    | nil => exact absurd hst hne
    | cons a t => simp [hst]
  have hset := totalEntropy_setCell g sq.pos.1 sq.pos.2 (Cell.sq target)
    (Cell.coll (target.collapse weights r)) htarget'
  simp only [cellEntropy] at hset
  have hprop : totalEntropy g' ≤ totalEntropy
      (g.setCell sq.pos.1 sq.pos.2 (Cell.coll (target.collapse weights r))) :=
    propagate_entropy _ _ g' hrun
  omega

theorem collapse_fresh_zero :
    Square.collapse ⟨(0, 0), allStates⟩ [] 0 = ⟨(0, 0), some State.deep⟩ := by
  unfold Square.collapse
  congr 1
  have hfw : filteredWeights ⟨(0, 0), allStates⟩ [] =
      allStates.map (fun s => (s, (1 : ℚ))) := by
    rw [filteredWeights_eq _ (by decide) []]
    refine List.map_congr_left ?_
    intro s _
    simp [biasTotal]
  unfold weightedRandom
  rw [hfw]
  have hsum : ((allStates.map (fun s => (s, (1 : ℚ)))).map Prod.snd).sum = 7 := by
    norm_num [allStates]
  rw [hsum]
  have h := weightedRandomGo_uniform allStates 0 (by decide) ((0 : ℚ) * 7)
    (by norm_num) (by norm_num)
  exact h

theorem step_1x1_eval :
    step ⟨1, 1, Grid.mkCells 1 1⟩ 0 0 =
      some ⟨1, 1, [[Cell.coll ⟨(0, 0), some State.deep⟩]]⟩ := by
  unfold step
  rw [if_neg (by decide)]
  have h1 : (lowestEntropyList ⟨1, 1, Grid.mkCells 1 1⟩).get? 0 =
      some ⟨(0, 0), allStates⟩ := by decide
  simp only [h1, Option.some_bind]
  have h2 : gatherWeights ⟨1, 1, Grid.mkCells 1 1⟩ (0, 0) = some [] := by decide
  simp only [h2, Option.some_bind]
  have h3 : asSquare (Grid.get ⟨1, 1, Grid.mkCells 1 1⟩ 0 0) =
      some ⟨(0, 0), allStates⟩ := by decide
  simp only [h3, Option.some_bind]
  unfold stepCollapse
  rw [collapse_fresh_zero]
  simp only [Option.some_bind]
  decide

/-- Witness for C3: one step on the fresh 1×1 grid with draw 0 takes the
total entropy from 7 to 0. -/
theorem c3_entropy_decreases_witness :
    totalEntropy ⟨1, 1, Grid.mkCells 1 1⟩ = 7 ∧
    step ⟨1, 1, Grid.mkCells 1 1⟩ 0 0 =
      some ⟨1, 1, [[Cell.coll ⟨(0, 0), some State.deep⟩]]⟩ ∧
    totalEntropy ⟨1, 1, [[Cell.coll ⟨(0, 0), some State.deep⟩]]⟩ + 1 ≤
      totalEntropy ⟨1, 1, Grid.mkCells 1 1⟩ := by
  refine ⟨by rfl, step_1x1_eval, ?_⟩
  exact c3_entropy_decreases ⟨1, 1, Grid.mkCells 1 1⟩ 0 0 (by rfl) _ step_1x1_eval

/-- The key list of the accumulator, in insertion order. -/
def keysOf (fl : FilterList) : List (ℤ × ℤ) :=
  fl.map Prod.fst

theorem keysOf_pushFilter (fl : FilterList) (p : ℤ × ℤ) (f : Filter) :
    keysOf (pushFilter fl p f) =
      if p ∈ keysOf fl then keysOf fl else keysOf fl ++ [p] := by
  unfold pushFilter keysOf
  have hmem : fl.any (fun kv => kv.1 = p) = true ↔ p ∈ fl.map Prod.fst := by
    rw [List.any_eq_true]
    constructor
    · rintro ⟨kv, hkv, he⟩
      rw [List.mem_map]
      exact ⟨kv, hkv, of_decide_eq_true he⟩
    · intro h
      rcases List.mem_map.mp h with ⟨kv, hkv, he⟩
      exact ⟨kv, hkv, decide_eq_true he⟩
  by_cases hp : p ∈ fl.map Prod.fst
  · rw [if_pos (hmem.mpr hp), if_pos hp, List.map_map]
    refine List.map_congr_left ?_
    intro kv _
    simp only [Function.comp_apply]
    by_cases he : kv.1 = p
    · rw [if_pos he]
    · rw [if_neg he]
  · rw [if_neg (fun hc => hp (hmem.mp hc)), if_neg hp, List.map_append]
    rfl

theorem keysOf_nodup_pushFilter (fl : FilterList) (p : ℤ × ℤ) (f : Filter)
    (h : (keysOf fl).Nodup) : (keysOf (pushFilter fl p f)).Nodup := by
  rw [keysOf_pushFilter]
  by_cases hp : p ∈ keysOf fl
  · rw [if_pos hp]; exact h
  · rw [if_neg hp]
    rw [List.nodup_append]
    exact ⟨h, List.nodup_singleton _,
      by intro a ha hb; rw [List.mem_singleton] at hb; subst hb; exact hp ha⟩

theorem setFiltersOrd_keys_nodup (g : Grid) (dirs : List (ℤ × ℤ)) :
    ∀ (fuel : Nat) (x y : ℤ) (f : Filter) (fl : FilterList)
      (completed : List (ℤ × ℤ)), (keysOf fl).Nodup →
      (keysOf (setFiltersOrd g dirs fuel x y f fl completed)).Nodup := by
  intro fuel
  induction fuel with
  | zero => intro x y f fl completed h; exact h
  | succ n ih =>
      intro x y f fl completed h
      by_cases hall : f.hasAll
      · rw [setFiltersOrd_stops_full g dirs _ x y f fl completed hall]; exact h
      · cases hget : g.get x y with
        | none =>
            rw [setFiltersOrd_stops_at_absent g x y hget dirs _ f fl completed]; exact h
        | some c =>
            cases c with
            | coll c =>
                rw [setFiltersOrd_stops_at_coll g dirs _ x y f fl completed c hget]
                exact h
            | sq square =>
                rw [setFiltersOrd_succ_sq g dirs n x y f fl completed square hget hall]
                by_cases hmem : (x, y) ∈ completed
                · rw [if_pos hmem]; exact h
                · rw [if_neg hmem]
                  by_cases heq : (Filter.mk square.states).equals f = true
                  · rw [if_pos heq]; exact h
                  · rw [if_neg heq]
                    refine foldl_preserve (fun fl2 => (keysOf fl2).Nodup) dirs _ _ ?_ ?_
                    · exact keysOf_nodup_pushFilter fl square.pos _ h
                    · intro acc d _ hacc
                      exact ih _ _ _ acc _ hacc

theorem propagate_frame (fl : FilterList) (g g' : Grid)
    (hrun : propagate g fl = some g') (q : ℤ × ℤ) (hq : q ∉ keysOf fl) :
    g'.get q.1 q.2 = g.get q.1 q.2 := by
  induction fl generalizing g with
  | nil => rw [Option.some.inj hrun]
  | cons kv rest ih =>
      obtain ⟨p, fs⟩ := kv
      have h' : (propagateStepCell g p fs).bind (fun g1 => propagate g1 rest) =
          some g' := hrun
      rw [Option.bind_eq_some] at h'
      obtain ⟨g1, hstep, hrest⟩ := h'
      obtain ⟨sq, hget, rfl⟩ := propagateStepCell_some g p fs g1 hstep
      have hq1 : q ∉ keysOf rest := fun hc => hq (List.mem_cons_of_mem _ hc)
      have hqp : ¬ (q.1 = p.1 ∧ q.2 = p.2) := by
        rintro ⟨h1, h2⟩
        exact hq (by
          have : q = p := Prod.ext h1 h2
          rw [this]
          exact List.mem_cons_self _ _)
      rw [ih _ hrest hq1]
      exact get_setCell_other g p.1 p.2 _ q.1 q.2 hqp

theorem lookupFL_cons (p q : ℤ × ℤ) (fs : List Filter) (rest : FilterList) :
    lookupFL ((q, fs) :: rest) p =
      if q = p then some fs else lookupFL rest p := by
  unfold lookupFL
  by_cases he : q = p
  · rw [if_pos he]
    rw [List.find?_cons_of_pos _ (by simp [he])]
    rfl
  · rw [if_neg he]
    rw [List.find?_cons_of_neg _ (by simp [he])]

theorem propagate_commit (fl : FilterList) (g g' : Grid)
    (hrun : propagate g fl = some g') (hnd : (keysOf fl).Nodup) :
    ∀ p fs, lookupFL fl p = some fs → ∀ sq, g.get p.1 p.2 = some (Cell.sq sq) →
      g'.get p.1 p.2 =
        some (Cell.sq ⟨sq.pos, (Filter.combine fs).apply sq.states⟩) := by
  induction fl generalizing g with
  | nil => intro p fs h; cases h
  | cons kv rest ih =>
      obtain ⟨q, qfs⟩ := kv
      intro p fs hlook sq hsq
      have h' : (propagateStepCell g q qfs).bind (fun g1 => propagate g1 rest) =
          some g' := hrun
      rw [Option.bind_eq_some] at h'
      obtain ⟨g1, hstep, hrest⟩ := h'
      obtain ⟨sq2, hget2, rfl⟩ := propagateStepCell_some g q qfs g1 hstep
      rw [lookupFL_cons] at hlook
      by_cases he : q = p
      · rw [if_pos he] at hlook
        rcases Option.some.inj hlook with rfl
        subst he
        have hsqeq : sq2 = sq := Cell.sq.inj (Option.some.inj (hget2.symm.trans hsq))
        subst hsqeq
        have hq1 : q ∉ keysOf rest := by
          have := List.nodup_cons.mp hnd
          exact this.1
        rw [propagate_frame rest _ g' hrest q hq1]
        exact get_setCell_same g q.1 q.2 _ _ hsq
      · rw [if_neg he] at hlook
        have hnd' : (keysOf rest).Nodup := (List.nodup_cons.mp hnd).2
        refine ih _ hrest hnd' p fs hlook sq ?_
        rw [get_setCell_other g q.1 q.2 _ p.1 p.2 ?_]
        · exact hsq
        · rintro ⟨h1, h2⟩
          exact he (Prod.ext h1.symm h2.symm)

/-- A 2×1 grid already at a fixed point of the propagation seeded by its
snow-collapsed left cell: the right cell holds exactly `[snow]`. -/
def convergedGrid : Grid :=
  ⟨2, 1, [[Cell.coll ⟨(0, 0), some State.snow⟩], [Cell.sq ⟨(1, 0), [State.snow]⟩]]⟩

/-- C7 counterexample: on `convergedGrid` the propagation seeded from the
collapse at `(0,0)` with state snow changes nothing (the grid is
converged), yet the exploration does NOT stop at the full-filter or
equal-filter checks: the path through `(1,0)` passes every guard (the
inbound 2-state snow filter is neither full nor `equals`-equal to the
1-state candidate list) and deposits a filter into the accumulator. -/
theorem c7_converged_counterexample :
    seedPropagation convergedGrid (0, 0) State.snow = some convergedGrid ∧
    seedFiltersOrd stdDirs convergedGrid (0, 0)
      (Filter.mk (Constraints State.snow).states) =
      [((1, 0), [Filter.mk [State.snow]])] := by
  exact ⟨by decide, by decide⟩

/-- C7 amended: re-running a propagation on a grid it leaves unchanged
(converged) commits no change — and, more precisely, every filter it
deposits is non-narrowing: applying any deposit, or the combined
intersection, to its cell's candidate list returns the list unchanged.
(Exploration paths need not stop at the full-filter or equal-filter
guards: a strict-superset inbound filter passes both and deposits a
harmless filter, as the counterexample shows.) -/
theorem c7_converged_no_narrowing (g : Grid) (pos : ℤ × ℤ) (s : State)
    (hconv : seedPropagation g pos s = some g) :
    ∀ p fs, lookupFL (seedFiltersOrd stdDirs g pos
        (Filter.mk (Constraints s).states)) p = some fs →
      ∀ sq, g.get p.1 p.2 = some (Cell.sq sq) →
        (∀ d ∈ fs, d.apply sq.states = sq.states) ∧
        (Filter.combine fs).apply sq.states = sq.states := by
  intro p fs hlook sq hsq
  have hnd : (keysOf (seedFiltersOrd stdDirs g pos
      (Filter.mk (Constraints s).states))).Nodup := by
    unfold seedFiltersOrd
    refine foldl_preserve (fun fl2 => (keysOf fl2).Nodup) stdDirs _ []
      (by simp [keysOf]) ?_
    intro acc d _ hacc
    exact setFiltersOrd_keys_nodup g stdDirs _ _ _ _ acc [] hacc
  have hrun : propagate g (seedFiltersOrd stdDirs g pos
      (Filter.mk (Constraints s).states)) = some g := hconv
  have hcommit := propagate_commit _ g g hrun hnd p fs hlook sq hsq
  have hsqeq : sq = ⟨sq.pos, (Filter.combine fs).apply sq.states⟩ :=
    Cell.sq.inj (Option.some.inj (hsq.symm.trans hcommit))
  have hstates : (Filter.combine fs).apply sq.states = sq.states :=
    (congrArg Square.states hsqeq).symm
  refine ⟨?_, hstates⟩
  intro d hd
  show sq.states.filter (fun st => d.includes st) = sq.states
  refine List.filter_eq_self.mpr ?_
  intro st hst
  have hstf : st ∈ (Filter.combine fs).apply sq.states := by
    rw [hstates]; exact hst
  have h2 := (List.mem_filter.mp hstf).2
  have h3 := (combine_includes fs st).mp h2
  exact h3.2 d hd

/-- Witness for C7's amended statement on the concrete converged grid. -/
theorem c7_converged_no_narrowing_witness :
    (∀ d ∈ [Filter.mk [State.snow]],
      d.apply (Square.mk (1, 0) [State.snow]).states =
        (Square.mk (1, 0) [State.snow]).states) ∧
    (Filter.combine [Filter.mk [State.snow]]).apply
        (Square.mk (1, 0) [State.snow]).states =
      (Square.mk (1, 0) [State.snow]).states := by
  exact c7_converged_no_narrowing convergedGrid (0, 0) State.snow (by decide)
    (1, 0) [Filter.mk [State.snow]] (by decide) ⟨(1, 0), [State.snow]⟩ (by decide)

/-- The sequence of `(key, filter)` deposit events an exploration makes,
in exploration order.  Mirrors `setFiltersOrd` but records deposits in a
flat list instead of pushing them into the accumulator. -/
def eventsOrd (g : Grid) (dirs : List (ℤ × ℤ)) :
    Nat → ℤ → ℤ → Filter → List (ℤ × ℤ) → List ((ℤ × ℤ) × Filter)
  | 0, _, _, _, _ => []
  | fuel + 1, x, y, f, completed =>
    if f.hasAll then []
    else
      match g.get x y with
      | some (Cell.sq square) =>
          if (x, y) ∈ completed then []
          else if (Filter.mk square.states).equals f then []
          else
            (square.pos, Filter.mk (f.apply square.states)) ::
              dirs.flatMap
                (fun d => eventsOrd g dirs fuel (x + d.1) (y + d.2)
                  (Filter.filter_union
                    ((f.apply square.states).map (fun s => (Constraints s).states)))
                  (completed ++ [(x, y)]))
      | _ => []

/-- Replay a list of deposit events into the accumulator. -/
def pushEvents (fl : FilterList) (evs : List ((ℤ × ℤ) × Filter)) : FilterList :=
  evs.foldl (fun a pe => pushFilter a pe.1 pe.2) fl

theorem pushEvents_append (fl : FilterList) (e1 e2 : List ((ℤ × ℤ) × Filter)) :
    pushEvents fl (e1 ++ e2) = pushEvents (pushEvents fl e1) e2 :=
  List.foldl_append _ _ _ _

theorem eventsOrd_stops_full (g : Grid) (dirs : List (ℤ × ℤ)) (fuel : Nat)
    (x y : ℤ) (f : Filter) (completed : List (ℤ × ℤ)) (hall : f.hasAll = true) :
    eventsOrd g dirs fuel x y f completed = [] := by
  cases fuel with
  | zero => rfl
  | succ n => simp [eventsOrd, hall]

theorem eventsOrd_stops_at_absent (g : Grid) (dirs : List (ℤ × ℤ)) (fuel : Nat)
    (x y : ℤ) (f : Filter) (completed : List (ℤ × ℤ)) (hget : g.get x y = none) :
    eventsOrd g dirs fuel x y f completed = [] := by
  cases fuel with
  | zero => rfl
  | succ n =>
      unfold eventsOrd
      by_cases hall : f.hasAll
      · rw [if_pos hall]
      · rw [if_neg hall, hget]

theorem eventsOrd_stops_at_coll (g : Grid) (dirs : List (ℤ × ℤ)) (fuel : Nat)
    (x y : ℤ) (f : Filter) (completed : List (ℤ × ℤ)) (c : CollapedSquare)
    (hget : g.get x y = some (Cell.coll c)) :
    eventsOrd g dirs fuel x y f completed = [] := by
  cases fuel with
  | zero => rfl
  | succ n =>
      unfold eventsOrd
      by_cases hall : f.hasAll
      · rw [if_pos hall]
      · rw [if_neg hall, hget]

theorem eventsOrd_succ_sq (g : Grid) (dirs : List (ℤ × ℤ)) (fuel : Nat)
    (x y : ℤ) (f : Filter) (completed : List (ℤ × ℤ)) (square : Square)
    (hget : g.get x y = some (Cell.sq square)) (hall : ¬ f.hasAll = true) :
    eventsOrd g dirs (fuel + 1) x y f completed =
      (if (x, y) ∈ completed then []
       else if (Filter.mk square.states).equals f = true then []
       else
        (square.pos, Filter.mk (f.apply square.states)) ::
          dirs.flatMap
            (fun d => eventsOrd g dirs fuel (x + d.1) (y + d.2)
              (Filter.filter_union
                ((f.apply square.states).map (fun s => (Constraints s).states)))
              (completed ++ [(x, y)]))) := by
  conv_lhs => rw [eventsOrd]
  rw [if_neg hall, hget]

theorem setFiltersOrd_eq_pushEvents (g : Grid) (dirs : List (ℤ × ℤ)) :
    ∀ (fuel : Nat) (x y : ℤ) (f : Filter) (fl : FilterList)
      (completed : List (ℤ × ℤ)),
      setFiltersOrd g dirs fuel x y f fl completed =
        pushEvents fl (eventsOrd g dirs fuel x y f completed) := by
  intro fuel
  induction fuel with
  | zero => intro x y f fl completed; rfl
  | succ n ih =>
      intro x y f fl completed
      by_cases hall : f.hasAll
      · rw [setFiltersOrd_stops_full g dirs _ x y f fl completed hall,
          eventsOrd_stops_full g dirs _ x y f completed hall]
        rfl
      · cases hget : g.get x y with
        | none =>
            rw [setFiltersOrd_stops_at_absent g x y hget dirs _ f fl completed,
              eventsOrd_stops_at_absent g dirs _ x y f completed hget]
            rfl
        | some c =>
            cases c with
            | coll c =>
                rw [setFiltersOrd_stops_at_coll g dirs _ x y f fl completed c hget,
                  eventsOrd_stops_at_coll g dirs _ x y f completed c hget]
                rfl
            | sq square =>
                rw [setFiltersOrd_succ_sq g dirs n x y f fl completed square hget hall,
                  eventsOrd_succ_sq g dirs n x y f completed square hget hall]
                by_cases hmem : (x, y) ∈ completed
                · rw [if_pos hmem, if_pos hmem]; rfl
                · rw [if_neg hmem, if_neg hmem]
                  by_cases heq : (Filter.mk square.states).equals f = true
                  · rw [if_pos heq, if_pos heq]; rfl
                  · rw [if_neg heq, if_neg heq]
                    have key : ∀ (ds : List (ℤ × ℤ)) (acc : FilterList),
                        ds.foldl
                          (fun acc d => setFiltersOrd g dirs n (x + d.1) (y + d.2)
                            (Filter.filter_union
                              ((f.apply square.states).map
                                (fun s => (Constraints s).states)))
                            acc (completed ++ [(x, y)]))
                          acc =
                        pushEvents acc
                          (ds.flatMap
                            (fun d => eventsOrd g dirs n (x + d.1) (y + d.2)
                              (Filter.filter_union
                                ((f.apply square.states).map
                                  (fun s => (Constraints s).states)))
                              (completed ++ [(x, y)]))) := by
                      intro ds
                      induction ds with
                      | nil => intro acc; rfl
                      | cons d dt ihd =>
                          intro acc
                          rw [List.foldl_cons, List.flatMap_cons, pushEvents_append]
                          rw [ih (x + d.1) (y + d.2) _ acc (completed ++ [(x, y)])]
                          exact ihd _
                    rw [key dirs _]
                    show pushEvents (pushFilter fl square.pos _) _ = pushEvents fl (_ :: _)
                    rfl

theorem setCell_eq_of_col (g : Grid) (x y : ℤ) (v : Cell) (col : List Cell)
    (hcol : g.grid.get? x.toNat = some col) (hxy : 0 ≤ x ∧ 0 ≤ y) :
    g.setCell x y v = ⟨g.width, g.height, g.grid.set x.toNat (col.set y.toNat v)⟩ := by
  unfold Grid.setCell
  rw [if_pos hxy, hcol]

theorem setCell_id_of_nocol (g : Grid) (x y : ℤ) (v : Cell)
    (hcol : g.grid.get? x.toNat = none) : g.setCell x y v = g := by
  unfold Grid.setCell
  by_cases hxy : 0 ≤ x ∧ 0 ≤ y
  · rw [if_pos hxy, hcol]
  · rw [if_neg hxy]

theorem setCell_id_of_neg (g : Grid) (x y : ℤ) (v : Cell)
    (hxy : ¬ (0 ≤ x ∧ 0 ≤ y)) : g.setCell x y v = g := by
  unfold Grid.setCell
  rw [if_neg hxy]

theorem grid_get?_len {g : Grid} {i : ℕ} {col : List Cell}
    (h : g.grid.get? i = some col) : i < g.grid.length := by
  by_contra hk
  rw [List.get?_eq_none.mpr (Nat.le_of_not_lt hk)] at h
  exact Option.noConfusion h

theorem setCell_comm (g : Grid) (p q : ℤ × ℤ) (v w : Cell)
    (hne : ¬ (p.1 = q.1 ∧ p.2 = q.2)) :
    (g.setCell p.1 p.2 v).setCell q.1 q.2 w =
      (g.setCell q.1 q.2 w).setCell p.1 p.2 v := by
  by_cases hp : 0 ≤ p.1 ∧ 0 ≤ p.2
  · by_cases hq : 0 ≤ q.1 ∧ 0 ≤ q.2
    · cases hpcol : g.grid.get? p.1.toNat with
      | none =>
          rw [setCell_id_of_nocol g p.1 p.2 v hpcol]
          cases hqcol : g.grid.get? q.1.toNat with
          | none => rw [setCell_id_of_nocol g q.1 q.2 w hqcol,
              setCell_id_of_nocol g p.1 p.2 v hpcol]
          | some colq =>
              rw [setCell_eq_of_col g q.1 q.2 w colq hqcol hq]
              rw [setCell_id_of_nocol _ p.1 p.2 v ?_]
              by_cases hx : p.1.toNat = q.1.toNat
              · rw [hx] at hpcol
                rw [hpcol] at hqcol
                exact Option.noConfusion hqcol
              · show (g.grid.set q.1.toNat (colq.set q.2.toNat w)).get? p.1.toNat = none
                rw [List.get?_set_ne _ _ (fun hc => hx hc.symm)]
                exact hpcol
      | some colp =>
          cases hqcol : g.grid.get? q.1.toNat with
          | none =>
              rw [setCell_id_of_nocol g q.1 q.2 w hqcol,
                setCell_eq_of_col g p.1 p.2 v colp hpcol hp]
              rw [setCell_id_of_nocol _ q.1 q.2 w ?_]
              by_cases hx : q.1.toNat = p.1.toNat
              · rw [hx] at hqcol
                rw [hqcol] at hpcol
                exact Option.noConfusion hpcol
              · show (g.grid.set p.1.toNat (colp.set p.2.toNat v)).get? q.1.toNat = none
                rw [List.get?_set_ne _ _ (fun hc => hx hc.symm)]
                exact hqcol
          | some colq =>
              rw [setCell_eq_of_col g p.1 p.2 v colp hpcol hp,
                setCell_eq_of_col g q.1 q.2 w colq hqcol hq]
              by_cases hx : p.1.toNat = q.1.toNat
              · have hx' : p.1 = q.1 := by omega
                have hcoleq : colp = colq := by
                  rw [hx] at hpcol
                  exact Option.some.inj (hpcol.symm.trans hqcol)
                have hy : p.2 ≠ q.2 := fun hc => hne ⟨hx', hc⟩
                have hy' : p.2.toNat ≠ q.2.toNat := by omega
                subst hcoleq
                rw [setCell_eq_of_col _ q.1 q.2 w (colp.set p.2.toNat v) ?hq1 hq,
                  setCell_eq_of_col _ p.1 p.2 v (colp.set q.2.toNat w) ?hp1 hp]
                case hq1 =>
                  show (g.grid.set p.1.toNat (colp.set p.2.toNat v)).get? q.1.toNat = _
                  rw [← hx]
                  exact List.get?_set_eq_of_lt _ (grid_get?_len hpcol)
                case hp1 =>
                  show (g.grid.set q.1.toNat (colp.set q.2.toNat w)).get? p.1.toNat = _
                  rw [hx]
                  exact List.get?_set_eq_of_lt _ (grid_get?_len hqcol)
                congr 1
                rw [← hx, List.set_set, List.set_set, List.set_comm _ _ _ hy']
              · rw [setCell_eq_of_col _ q.1 q.2 w colq ?hq2 hq,
                  setCell_eq_of_col _ p.1 p.2 v colp ?hp2 hp]
                case hq2 =>
                  show (g.grid.set p.1.toNat (colp.set p.2.toNat v)).get? q.1.toNat = _
                  rw [List.get?_set_ne _ _ hx]
                  exact hqcol
                case hp2 =>
                  show (g.grid.set q.1.toNat (colq.set q.2.toNat w)).get? p.1.toNat = _
                  rw [List.get?_set_ne _ _ (fun hc => hx hc.symm)]
                  exact hpcol
                congr 1
                exact List.set_comm _ _ _ hx
    · rw [setCell_id_of_neg _ q.1 q.2 w hq, setCell_id_of_neg g q.1 q.2 w hq]
  · rw [setCell_id_of_neg g p.1 p.2 v hp, setCell_id_of_neg _ p.1 p.2 v hp]

theorem propagate_cons (g : Grid) (e : (ℤ × ℤ) × List Filter) (t : FilterList) :
    propagate g (e :: t) =
      (propagateStepCell g e.1 e.2).bind (fun g1 => propagate g1 t) := rfl

theorem propagateStepCell_not_sq (g : Grid) (p : ℤ × ℤ) (fs : List Filter)
    (h : ∀ sq, g.get p.1 p.2 ≠ some (Cell.sq sq)) :
    propagateStepCell g p fs = none := by
  unfold propagateStepCell
  cases hget : g.get p.1 p.2 with
  | none => rfl
  | some c =>
      cases c with
      | coll c => rfl
      | sq sq => exact absurd hget (h sq)

theorem propagateStepCell_comm (g : Grid) (a b : (ℤ × ℤ) × List Filter)
    (hne : a.1 ≠ b.1) :
    (propagateStepCell g a.1 a.2).bind (fun g1 => propagateStepCell g1 b.1 b.2) =
      (propagateStepCell g b.1 b.2).bind (fun g1 => propagateStepCell g1 a.1 a.2) := by
  have hne1 : ¬ (a.1.1 = b.1.1 ∧ a.1.2 = b.1.2) := by
    rintro ⟨h1, h2⟩
    exact hne (Prod.ext h1 h2)
  have hne2 : ¬ (b.1.1 = a.1.1 ∧ b.1.2 = a.1.2) := by
    rintro ⟨h1, h2⟩
    exact hne (Prod.ext h1.symm h2.symm)
  cases hga : g.get a.1.1 a.1.2 with
  | none =>
      rw [propagateStepCell_not_sq g a.1 a.2 (by rw [hga]; intro _ hc; cases hc)]
      rw [Option.none_bind]
      cases hgb : g.get b.1.1 b.1.2 with
      | none =>
          rw [propagateStepCell_not_sq g b.1 b.2 (by rw [hgb]; intro _ hc; cases hc)]
          rfl
      | some cb =>
          cases cb with
          | coll cb =>
              rw [propagateStepCell_not_sq g b.1 b.2 (by rw [hgb]; intro _ hc; cases hc)]
              rfl
          | sq sqb =>
              rw [propagateStepCell_sq g b.1 b.2 sqb hgb, Option.some_bind]
              rw [propagateStepCell_not_sq _ a.1 a.2 ?_]
              intro sq
              rw [get_setCell_other g b.1.1 b.1.2 _ a.1.1 a.1.2 hne1, hga]
              intro hc; cases hc
  | some ca =>
      cases ca with
      | coll ca =>
          rw [propagateStepCell_not_sq g a.1 a.2 (by rw [hga]; intro _ hc; cases hc)]
          rw [Option.none_bind]
          cases hgb : g.get b.1.1 b.1.2 with
          | none =>
              rw [propagateStepCell_not_sq g b.1 b.2 (by rw [hgb]; intro _ hc; cases hc)]
              rfl
          | some cb =>
              cases cb with
              | coll cb =>
                  rw [propagateStepCell_not_sq g b.1 b.2
                    (by rw [hgb]; intro _ hc; cases hc)]
                  rfl
              | sq sqb =>
                  rw [propagateStepCell_sq g b.1 b.2 sqb hgb, Option.some_bind]
                  rw [propagateStepCell_not_sq _ a.1 a.2 ?_]
                  intro sq
                  rw [get_setCell_other g b.1.1 b.1.2 _ a.1.1 a.1.2 hne1, hga]
                  intro hc; cases hc
      | sq sqa =>
          rw [propagateStepCell_sq g a.1 a.2 sqa hga, Option.some_bind]
          cases hgb : g.get b.1.1 b.1.2 with
          | none =>
              rw [propagateStepCell_not_sq g b.1 b.2 (by rw [hgb]; intro _ hc; cases hc)]
              rw [Option.none_bind]
              rw [propagateStepCell_not_sq _ b.1 b.2 ?_]
              intro sq
              rw [get_setCell_other g a.1.1 a.1.2 _ b.1.1 b.1.2 hne2, hgb]
              intro hc; cases hc
          | some cb =>
              cases cb with
              | coll cb =>
                  rw [propagateStepCell_not_sq _ b.1 b.2 ?_, propagateStepCell_not_sq g b.1 b.2
                    (by rw [hgb]; intro _ hc; cases hc)]
                  · rfl
                  · intro sq
                    rw [get_setCell_other g a.1.1 a.1.2 _ b.1.1 b.1.2 hne2, hgb]
                    intro hc; cases hc
              | sq sqb =>
                  rw [propagateStepCell_sq _ b.1 b.2 sqb
                    (by rw [get_setCell_other g a.1.1 a.1.2 _ b.1.1 b.1.2 hne2]; exact hgb)]
                  rw [propagateStepCell_sq g b.1 b.2 sqb hgb, Option.some_bind]
                  rw [propagateStepCell_sq _ a.1 a.2 sqa
                    (by rw [get_setCell_other g b.1.1 b.1.2 _ a.1.1 a.1.2 hne1]; exact hga)]
                  congr 1
                  exact setCell_comm g a.1 b.1 _ _ hne1

theorem propagate_perm (fl1 fl2 : FilterList) (hperm : fl1.Perm fl2) :
    (keysOf fl1).Nodup → ∀ g, propagate g fl1 = propagate g fl2 := by
  induction hperm with
  | nil => intro _ g; rfl
  | cons e h ih =>
      intro hnd g
      rw [propagate_cons, propagate_cons]
      cases hc : propagateStepCell g e.1 e.2 with
      | none => rfl
      | some g1 =>
          rw [Option.some_bind, Option.some_bind]
          exact ih (List.nodup_cons.mp hnd).2 g1
  | swap x y l =>
      intro hnd g
      rw [propagate_cons, propagate_cons]
      have hxy : y.1 ≠ x.1 := by
        have h1 := (List.nodup_cons.mp hnd).1
        intro hc
        apply h1
        rw [hc]
        exact List.mem_map.mpr ⟨x, List.mem_cons_self _ _, rfl⟩
      have hcomm := propagateStepCell_comm g y x hxy
      calc (propagateStepCell g y.1 y.2).bind (fun g1 => propagate g1 (x :: l))
          = ((propagateStepCell g y.1 y.2).bind
              (fun g1 => propagateStepCell g1 x.1 x.2)).bind
              (fun g2 => propagate g2 l) := by
            rw [Option.bind_assoc]
            rfl
        _ = ((propagateStepCell g x.1 x.2).bind
              (fun g1 => propagateStepCell g1 y.1 y.2)).bind
              (fun g2 => propagate g2 l) := by rw [hcomm]
        _ = (propagateStepCell g x.1 x.2).bind (fun g1 => propagate g1 (y :: l)) := by
            rw [Option.bind_assoc]
            rfl
  | trans h1 h2 ih1 ih2 =>
      intro hnd g
      rw [ih1 hnd g]
      refine ih2 ?_ g
      exact ((h1.map Prod.fst).nodup_iff).mp hnd

theorem propagateStepCell_congr (g : Grid) (p : ℤ × ℤ) (fs1 fs2 : List Filter)
    (h : ∀ st, (Filter.combine fs1).includes st = (Filter.combine fs2).includes st) :
    propagateStepCell g p fs1 = propagateStepCell g p fs2 := by
  cases hget : g.get p.1 p.2 with
  | none =>
      rw [propagateStepCell_not_sq g p fs1 (by rw [hget]; intro _ hc; cases hc),
        propagateStepCell_not_sq g p fs2 (by rw [hget]; intro _ hc; cases hc)]
  | some c =>
      cases c with
      | coll c =>
          rw [propagateStepCell_not_sq g p fs1 (by rw [hget]; intro _ hc; cases hc),
            propagateStepCell_not_sq g p fs2 (by rw [hget]; intro _ hc; cases hc)]
      | sq sq =>
          rw [propagateStepCell_sq g p fs1 sq hget, propagateStepCell_sq g p fs2 sq hget]
          have : (Filter.combine fs1).apply sq.states =
              (Filter.combine fs2).apply sq.states := by
            show sq.states.filter _ = sq.states.filter _
            exact List.filter_congr (fun st _ => h st)
          rw [this]

theorem propagate_congr (fl1 fl2 : FilterList)
    (h : List.Forall₂
      (fun e1 e2 => e1.1 = e2.1 ∧
        ∀ st, (Filter.combine e1.2).includes st = (Filter.combine e2.2).includes st)
      fl1 fl2) :
    ∀ g, propagate g fl1 = propagate g fl2 := by
  induction h with
  | nil => intro g; rfl
  | cons he ht ih =>
      intro g
      rw [propagate_cons, propagate_cons]
      rw [show propagateStepCell g _ _ = _ from
        propagateStepCell_congr g _ _ _ he.2, he.1]
      cases hc : propagateStepCell g _ _ with
      | none => rfl
      | some g1 =>
          rw [Option.some_bind, Option.some_bind]
          exact ih g1

/-- The deposits recorded for coordinate `p`, in event order. -/
def collect (p : ℤ × ℤ) (evs : List ((ℤ × ℤ) × Filter)) : List Filter :=
  (evs.filter (fun e => e.1 = p)).map Prod.snd

theorem collect_append_single (p : ℤ × ℤ) (evs : List ((ℤ × ℤ) × Filter))
    (e : (ℤ × ℤ) × Filter) :
    collect p (evs ++ [e]) = collect p evs ++ (if e.1 = p then [e.2] else []) := by
  unfold collect
  rw [List.filter_append, List.map_append]
  congr 1
  by_cases he : e.1 = p
  · rw [if_pos he, List.filter_cons_of_pos (by simp [he])]
    rfl
  · rw [if_neg he, List.filter_cons_of_neg (by simp [he])]
    rfl

theorem collect_eq_nil (p : ℤ × ℤ) (evs : List ((ℤ × ℤ) × Filter))
    (h : p ∉ evs.map Prod.fst) : collect p evs = [] := by
  unfold collect
  have : evs.filter (fun e => e.1 = p) = [] := by
    rw [List.filter_eq_nil]
    intro kv hkv
    simp only [decide_eq_true_eq]
    intro hc
    exact h (List.mem_map.mpr ⟨kv, hkv, hc⟩)
  rw [this]
  rfl

theorem jsSetDedup_append_single {α : Type} [DecidableEq α] (l : List α) (a : α) :
    jsSetDedup (l ++ [a]) =
      if a ∈ l then jsSetDedup l else jsSetDedup l ++ [a] := by
  have hstep : jsSetDedup (l ++ [a]) =
      (if a ∈ jsSetDedup l then jsSetDedup l else jsSetDedup l ++ [a]) := by
    show List.foldl _ [] (l ++ [a]) = _
    rw [List.foldl_append]
    rfl
  rw [hstep]
  by_cases ha : a ∈ l
  · rw [if_pos ((mem_jsSetDedup l a).mpr ha), if_pos ha]
  · rw [if_neg (fun hc => ha ((mem_jsSetDedup l a).mp hc)), if_neg ha]

theorem pushEvents_nil_eq (evs : List ((ℤ × ℤ) × Filter)) :
    pushEvents [] evs =
      (jsSetDedup (evs.map Prod.fst)).map (fun p => (p, collect p evs)) := by
  induction evs using List.reverseRecOn with
  | nil => rfl
  | append_singleton evs e ih =>
      rw [pushEvents_append, ih, List.map_append,
        show List.map Prod.fst [e] = [e.1] from rfl, jsSetDedup_append_single]
      show pushFilter _ e.1 e.2 = _
      by_cases ha : e.1 ∈ evs.map Prod.fst
      · rw [if_pos ha]
        unfold pushFilter
        have hany : ((jsSetDedup (evs.map Prod.fst)).map
            (fun p => (p, collect p evs))).any (fun kv => kv.1 = e.1) = true := by
          rw [List.any_eq_true]
          exact ⟨(e.1, collect e.1 evs),
            List.mem_map.mpr ⟨e.1, (mem_jsSetDedup _ _).mpr ha, rfl⟩, by simp⟩
        rw [if_pos hany]
        rw [List.map_map]
        refine List.map_congr_left ?_
        intro p hp
        simp only [Function.comp_apply]
        by_cases hpe : p = e.1
        · rw [if_pos (by simpa using hpe)]
          rw [collect_append_single, if_pos hpe.symm]
        · rw [if_neg (by simpa using hpe)]
          rw [collect_append_single, if_neg (fun hc => hpe hc.symm), List.append_nil]
      · rw [if_neg ha]
        unfold pushFilter
        have hnoany : ¬ ((jsSetDedup (evs.map Prod.fst)).map
            (fun p => (p, collect p evs))).any (fun kv => kv.1 = e.1) = true := by
          rw [List.any_eq_true]
          rintro ⟨kv, hkv, he⟩
          rcases List.mem_map.mp hkv with ⟨p, hp, rfl⟩
          simp only [decide_eq_true_eq] at he
          exact ha ((mem_jsSetDedup _ _).mp (he ▸ hp))
        rw [if_neg hnoany]
        rw [List.map_append]
        congr 1
        · refine List.map_congr_left ?_
          intro p hp
          rw [collect_append_single, if_neg ?_, List.append_nil]
          intro hc
          exact ha (hc ▸ (mem_jsSetDedup _ _).mp hp)
        · show [(e.1, [e.2])] = [(e.1, collect e.1 (evs ++ [e]))]
          rw [collect_append_single, collect_eq_nil e.1 evs ha, if_pos rfl]
          rfl

theorem eventsOrd_perm (g : Grid) (dirs dirs' : List (ℤ × ℤ))
    (hperm : dirs.Perm dirs') :
    ∀ (fuel : Nat) (x y : ℤ) (f : Filter) (completed : List (ℤ × ℤ)),
      (eventsOrd g dirs fuel x y f completed).Perm
        (eventsOrd g dirs' fuel x y f completed) := by
  intro fuel
  induction fuel with
  | zero => intro x y f completed; exact List.Perm.refl _
  | succ n ih =>
      intro x y f completed
      by_cases hall : f.hasAll
      · rw [eventsOrd_stops_full g dirs _ x y f completed hall,
          eventsOrd_stops_full g dirs' _ x y f completed hall]
      · cases hget : g.get x y with
        | none =>
            rw [eventsOrd_stops_at_absent g dirs _ x y f completed hget,
              eventsOrd_stops_at_absent g dirs' _ x y f completed hget]
        | some c =>
            cases c with
            | coll c =>
                rw [eventsOrd_stops_at_coll g dirs _ x y f completed c hget,
                  eventsOrd_stops_at_coll g dirs' _ x y f completed c hget]
            | sq square =>
                rw [eventsOrd_succ_sq g dirs n x y f completed square hget hall,
                  eventsOrd_succ_sq g dirs' n x y f completed square hget hall]
                by_cases hmem : (x, y) ∈ completed
                · rw [if_pos hmem, if_pos hmem]
                · rw [if_neg hmem, if_neg hmem]
                  by_cases heq : (Filter.mk square.states).equals f = true
                  · rw [if_pos heq, if_pos heq]
                  · rw [if_neg heq, if_neg heq]
                    refine List.Perm.cons _ ?_
                    have h1 : (dirs.flatMap fun d =>
                          eventsOrd g dirs n (x + d.1) (y + d.2)
                            (Filter.filter_union ((f.apply square.states).map
                              (fun s => (Constraints s).states)))
                            (completed ++ [(x, y)])).Perm
                        (dirs.flatMap fun d =>
                          eventsOrd g dirs' n (x + d.1) (y + d.2)
                            (Filter.filter_union ((f.apply square.states).map
                              (fun s => (Constraints s).states)))
                            (completed ++ [(x, y)])) :=
                      List.Perm.flatMap_left dirs
                        (fun d _ => ih (x + d.1) (y + d.2) _ (completed ++ [(x, y)]))
                    have h2 : (dirs.flatMap fun d =>
                          eventsOrd g dirs' n (x + d.1) (y + d.2)
                            (Filter.filter_union ((f.apply square.states).map
                              (fun s => (Constraints s).states)))
                            (completed ++ [(x, y)])).Perm
                        (dirs'.flatMap fun d =>
                          eventsOrd g dirs' n (x + d.1) (y + d.2)
                            (Filter.filter_union ((f.apply square.states).map
                              (fun s => (Constraints s).states)))
                            (completed ++ [(x, y)])) :=
                      List.Perm.flatMap_right _ hperm
                    exact h1.trans h2

theorem forall₂_map_same {α β : Type} (R : β → β → Prop) (f h : α → β) (l : List α)
    (hr : ∀ a ∈ l, R (f a) (h a)) : List.Forall₂ R (l.map f) (l.map h) := by
  induction l with
  | nil => exact List.Forall₂.nil
  | cons a t ih =>
      exact List.Forall₂.cons (hr a (List.mem_cons_self _ _))
        (ih (fun a2 ha2 => hr a2 (List.mem_cons_of_mem _ ha2)))

theorem propagate_events_perm (g : Grid) (evs evs' : List ((ℤ × ℤ) × Filter))
    (h : evs.Perm evs') :
    propagate g (pushEvents [] evs) = propagate g (pushEvents [] evs') := by
  rw [pushEvents_nil_eq, pushEvents_nil_eq]
  have hstep1 : propagate g ((jsSetDedup (evs'.map Prod.fst)).map
        (fun p => (p, collect p evs'))) =
      propagate g ((jsSetDedup (evs'.map Prod.fst)).map
        (fun p => (p, collect p evs))) := by
    refine propagate_congr _ _ ?_ g
    refine forall₂_map_same _ _ _ _ ?_
    intro p _
    refine ⟨rfl, ?_⟩
    intro st
    have hcp : (collect p evs').Perm (collect p evs) := (h.symm.filter _).map _
    refine bool_eq_of_iff ?_
    rw [combine_includes, combine_includes]
    constructor
    · rintro ⟨hne, hall⟩
      have hne' : collect p evs' ≠ [] := hne
      refine ⟨?_, fun d hd => hall d (hcp.mem_iff.mpr hd)⟩
      intro hc
      have hc' : collect p evs = [] := hc
      exact hne' ((hc' ▸ hcp).eq_nil)
    · rintro ⟨hne, hall⟩
      have hne' : collect p evs ≠ [] := hne
      refine ⟨?_, fun d hd => hall d (hcp.mem_iff.mp hd)⟩
      intro hc
      have hc' : collect p evs' = [] := hc
      exact hne' ((hc' ▸ hcp.symm).eq_nil)
  have hk : (jsSetDedup (evs'.map Prod.fst)).Perm (jsSetDedup (evs.map Prod.fst)) := by
    rw [List.perm_ext_iff_of_nodup (nodup_jsSetDedup _) (nodup_jsSetDedup _)]
    intro a
    rw [mem_jsSetDedup, mem_jsSetDedup]
    exact (h.symm.map Prod.fst).mem_iff
  have hstep2 : propagate g ((jsSetDedup (evs'.map Prod.fst)).map
        (fun p => (p, collect p evs))) =
      propagate g ((jsSetDedup (evs.map Prod.fst)).map
        (fun p => (p, collect p evs))) := by
    refine propagate_perm _ _ (hk.map _) ?_ g
    show (List.map Prod.fst (List.map (fun p => (p, collect p evs))
      (jsSetDedup (List.map Prod.fst evs')))).Nodup
    rw [List.map_map]
    have hid : (Prod.fst ∘ fun p : ℤ × ℤ => (p, collect p evs)) = id := rfl
    rw [hid, List.map_id]
    exact nodup_jsSetDedup _
  exact (hstep1.trans hstep2).symm

/-- The flat deposit-event sequence of a whole seeded exploration. -/
def seedEventsOrd (dirs : List (ℤ × ℤ)) (g : Grid) (pos : ℤ × ℤ) (f : Filter) :
    List ((ℤ × ℤ) × Filter) :=
  dirs.flatMap (fun d => eventsOrd g dirs (stdFuel g) (pos.1 + d.1) (pos.2 + d.2) f [])

theorem seedFiltersOrd_eq_pushEvents (dirs : List (ℤ × ℤ)) (g : Grid)
    (pos : ℤ × ℤ) (f : Filter) :
    seedFiltersOrd dirs g pos f = pushEvents [] (seedEventsOrd dirs g pos f) := by
  unfold seedFiltersOrd seedEventsOrd
  have key : ∀ (ds : List (ℤ × ℤ)) (acc : FilterList),
      ds.foldl (fun fl d =>
        setFiltersOrd g dirs (stdFuel g) (pos.1 + d.1) (pos.2 + d.2) f fl []) acc =
      pushEvents acc (ds.flatMap (fun d =>
        eventsOrd g dirs (stdFuel g) (pos.1 + d.1) (pos.2 + d.2) f [])) := by
    intro ds
    induction ds with
    | nil => intro acc; rfl
    | cons d dt ihd =>
        intro acc
        rw [List.foldl_cons, List.flatMap_cons, pushEvents_append,
          setFiltersOrd_eq_pushEvents]
        exact ihd _
  exact key dirs []

theorem seedEventsOrd_perm (dirs : List (ℤ × ℤ)) (hperm : dirs.Perm stdDirs)
    (g : Grid) (pos : ℤ × ℤ) (f : Filter) :
    (seedEventsOrd dirs g pos f).Perm (seedEventsOrd stdDirs g pos f) := by
  unfold seedEventsOrd
  have h1 : (dirs.flatMap (fun d =>
        eventsOrd g dirs (stdFuel g) (pos.1 + d.1) (pos.2 + d.2) f [])).Perm
      (dirs.flatMap (fun d =>
        eventsOrd g stdDirs (stdFuel g) (pos.1 + d.1) (pos.2 + d.2) f [])) :=
    List.Perm.flatMap_left dirs
      (fun d _ => eventsOrd_perm g dirs stdDirs hperm (stdFuel g)
        (pos.1 + d.1) (pos.2 + d.2) f [])
  have h2 : (dirs.flatMap (fun d =>
        eventsOrd g stdDirs (stdFuel g) (pos.1 + d.1) (pos.2 + d.2) f [])).Perm
      (stdDirs.flatMap (fun d =>
        eventsOrd g stdDirs (stdFuel g) (pos.1 + d.1) (pos.2 + d.2) f [])) :=
    List.Perm.flatMap_right _ hperm
  exact h1.trans h2

/-- C1: the two-phase design commits order-independently.  Exploration
only accumulates deposits (in the embedding it is a pure function of the
unmutated grid), the finalize phase sets every recorded coordinate's
candidate list to its prior candidates intersected with all filters
deposited for that coordinate, and running the whole propagation with the
four directions explored in any other order at every node produces the
same resulting grid. -/
theorem c1_two_phase_order_independent (g : Grid) (pos : ℤ × ℤ) (s : State)
    (dirs : List (ℤ × ℤ)) (hperm : dirs.Perm stdDirs) :
    seedPropagationOrd dirs g pos s = seedPropagation g pos s ∧
    (∀ g', seedPropagation g pos s = some g' →
      ∀ p fs, lookupFL (seedFiltersOrd stdDirs g pos
          (Filter.mk (Constraints s).states)) p = some fs →
        ∀ sq, g.get p.1 p.2 = some (Cell.sq sq) →
          g'.get p.1 p.2 =
            some (Cell.sq ⟨sq.pos, (Filter.combine fs).apply sq.states⟩)) := by
  constructor
  · show propagate g (seedFiltersOrd dirs g pos (Filter.mk (Constraints s).states)) =
      propagate g (seedFiltersOrd stdDirs g pos (Filter.mk (Constraints s).states))
    rw [seedFiltersOrd_eq_pushEvents, seedFiltersOrd_eq_pushEvents]
    exact propagate_events_perm g _ _ (seedEventsOrd_perm dirs hperm g pos _)
  · intro g' hrun p fs hlook sq hsq
    have hnd : (keysOf (seedFiltersOrd stdDirs g pos
        (Filter.mk (Constraints s).states))).Nodup := by
      unfold seedFiltersOrd
      refine foldl_preserve (fun fl2 => (keysOf fl2).Nodup) stdDirs _ []
        (by simp [keysOf]) ?_
      intro acc d _ hacc
      exact setFiltersOrd_keys_nodup g stdDirs _ _ _ _ acc [] hacc
    exact propagate_commit _ g g' hrun hnd p fs hlook sq hsq

/-- Witness for C1: exploring the 2×2 snow grid with the first two
directions swapped produces the same propagated grid. -/
theorem c1_two_phase_order_independent_witness :
    seedPropagationOrd [(-1, 0), (1, 0), (0, 1), (0, -1)] revisitGrid (0, 0)
      State.snow = seedPropagation revisitGrid (0, 0) State.snow := by
  exact (c1_two_phase_order_independent revisitGrid (0, 0) State.snow
    [(-1, 0), (1, 0), (0, 1), (0, -1)]
    (List.Perm.swap (1, 0) (-1, 0) [(0, 1), (0, -1)])).1

end TG
